import Mathlib

/-!
# Filtered string views

A verification development for `fsv::filtered_string_view`
(`src/filtered_string_view.h`, `src/filtered_string_view.cpp`): a non-owning
view over a character buffer together with a predicate, its comparison
operators, its copy and move members, its iterators, and the free functions
`compose`, `split` and `substr` built on it.  Every definition of the first part follows
the source function of the same name; the second part is the vocabulary in
which the properties are stated.

## Embedding

* Memory is a flat list of characters; an address is an index into it and
  address `0` is the null pointer.  A read outside the mapped memory, or through
  the null pointer, is undefined behaviour and is modelled by `none`.
* A `filter` is `std::function<bool(const char&)>`.  It receives its argument
  by reference, and the predicates built by `split` and `substr` compare the
  *address* of the argument, so a filter is a function of the address of the
  character and of its value.
* `int` is a 32-bit two's complement integer: values are `Int`, and arithmetic
  on them wraps through `wrap_int`.  `std::size_t` values are `Nat`.
* An exception is an `Except.error` carrying the `what()` message.
* The copy and move members act on view objects; a `Store` gives the value of
  the object at every object address, so that `this == &other` can be told.
* An iterator is its raw position and the predicate it points to.
-/

namespace fsv

/-! ## Memory and machine integers -/

/-- A filter receives the address of the referenced character and its value. -/
abbrev Filter := Nat → Char → Bool

/-- Flat memory: the character stored at every mapped address. -/
abbrev Mem := List Char

/-- The terminating character of a C string. -/
def NUL : Char := Char.ofNat 0

/-- The null pointer. -/
def nullptr : Nat := 0

/-- Largest value of a 32-bit `int`. -/
def INT_MAX : Int := 2147483647

/-- Smallest value of a 32-bit `int`. -/
def INT_MIN : Int := -2147483648

/-- Reduction of an integer to the range of a 32-bit two's complement `int`. -/
def wrap_int (x : Int) : Int := (x + 2147483648) % 4294967296 - 2147483648

/-- Reading `*p`: undefined through the null pointer and outside the memory. -/
def load (m : Mem) (p : Nat) : Option Char :=
  if p = nullptr then none else m[p]?

/-- Scan of `std::strlen` over the memory that starts at the argument. -/
def strlen_from : List Char → Option Nat
  | [] => none
  | c :: cs => if c = NUL then some 0 else (strlen_from cs).map (· + 1)

/-- `std::strlen(p)`: the number of characters before the first `NUL` at or
after `p`; undefined for the null pointer and when no `NUL` follows. -/
def strlen (m : Mem) (p : Nat) : Option Nat :=
  if p = nullptr then none else strlen_from (m.drop p)

/-- `std::count_if(first, first + k, pred)`. -/
def count_if (m : Mem) (pred : Filter) : Nat → Nat → Option Nat
  | _, 0 => some 0
  | p, k + 1 => do
    let c ← load m p
    let r ← count_if m pred (p + 1) k
    some (if pred p c then r + 1 else r)

/-- The characters of the range `[p, p + k)`. -/
def bytes (m : Mem) : Nat → Nat → Option (List Char)
  | _, 0 => some []
  | p, k + 1 => do
    let c ← load m p
    let r ← bytes m (p + 1) k
    some (c :: r)

/-- Offset of the first occurrence of `pat` in the sequence, or the length of
the sequence when there is none. -/
def search_list (pat : List Char) : List Char → Nat
  | [] => 0
  | c :: cs => if pat.isPrefixOf (c :: cs) then 0 else search_list pat cs + 1

/-- `std::search(first, last, s_first, s_last)`: the first position of
`[first, last)` at which the sequence `[s_first, s_last)` occurs, and `last`
when it does not occur. -/
def search (m : Mem) (first last s_first s_last : Nat) : Option Nat := do
  let hay ← bytes m first (last - first)
  let pat ← bytes m s_first (s_last - s_first)
  some (first + search_list pat hay)

/-! ## The view -/

/-- The private members of `filtered_string_view`. -/
structure filtered_string_view where
  _ptr : Nat
  _length : Nat
  _predicate : Filter

/-- `filtered_string_view::default_predicate`. -/
def default_predicate : Filter := fun _ _ => true

namespace filtered_string_view

/-- Default constructor. -/
def mk_default : filtered_string_view :=
  ⟨nullptr, 0, default_predicate⟩

/-- Constructor from a `std::string` whose `data()` and `size()` are given,
with a predicate. -/
def of_string (data size : Nat) (predicate : Filter) : filtered_string_view :=
  ⟨data, size, predicate⟩

/-- Constructor from a null-terminated string, with a predicate. -/
def of_cstr (m : Mem) (str : Nat) (predicate : Filter) : Option filtered_string_view := do
  let n ← strlen m str
  some ⟨str, n, predicate⟩

/-- Member function `data`. -/
def data (v : filtered_string_view) : Nat := v._ptr

/-- Member function `predicate`. -/
def predicate (v : filtered_string_view) : Filter := v._predicate

/-- Member function `size`. -/
def size (m : Mem) (v : filtered_string_view) : Option Nat :=
  count_if m v._predicate v._ptr v._length

/-- Member function `empty`. -/
def empty (m : Mem) (v : filtered_string_view) : Option Bool := do
  let n ← v.size m
  some (n == 0)

/-- The loop shared, statement for statement, by `operator[]` and `at`: `p` runs
over the `k` remaining raw positions; `some (some c)` is `return *p`, and
`some none` is leaving the loop at `_ptr + _length`. -/
def nth_loop (m : Mem) (pred : Filter) (n : Int) : Nat → Nat → Int → Option (Option Char)
  | _, 0, _ => some none
  | p, k + 1, index => do
    let c ← load m p
    if pred p c then
      if index = n then some (some c)
      else nth_loop m pred n (p + 1) k (wrap_int (index + 1))
    else nth_loop m pred n (p + 1) k index

/-- Subscript operator `operator[]`. -/
def subscript (m : Mem) (v : filtered_string_view) (n : Int) : Option Char := do
  match ← nth_loop m v._predicate n v._ptr v._length 0 with
  | some c => some c
  | none => some NUL

/-- Loop of the string conversion operator. -/
def to_string_loop (m : Mem) (pred : Filter) : Nat → Nat → Option (List Char)
  | _, 0 => some []
  | p, k + 1 => do
    let c ← load m p
    let r ← to_string_loop m pred (p + 1) k
    some (if pred p c then c :: r else r)

/-- Conversion `operator std::string` (the call of `reserve` only sets the
capacity of the result). -/
def to_string (m : Mem) (v : filtered_string_view) : Option (List Char) :=
  to_string_loop m v._predicate v._ptr v._length

/-- The `what()` message of the `std::domain_error` thrown by `at`. -/
def at_message (index : Int) : String :=
  "filtered_string_view::at(" ++ toString index ++ "): invalid index"

/-- Member function `at`. -/
def at_ (m : Mem) (v : filtered_string_view) (index : Int) : Option (Except String Char) :=
  if index < 0 then some (.error (at_message index))
  else do
    let sz ← v.size m
    if index.toNat ≥ sz then some (.error (at_message index))
    else
      match ← nth_loop m v._predicate index v._ptr v._length 0 with
      | some c => some (.ok c)
      | none => some (.error (at_message index))

end filtered_string_view

open filtered_string_view

/-! ## `split` -/

/-- The `while` loop of `split`, from the given `segment_start`: the views
pushed to `result` and the value of `segment_start` when the loop is left.
`lit` is the address of the string literal `""`.  The first argument bounds the
number of iterations and `none` is returned when it is used up: every iteration
that does not leave the loop moves `segment_start` forward by `tok_size`. -/
def split_loop (m : Mem) (lit : Nat) (fsv : filtered_string_view)
    (fsv_end tok_start tok_size : Nat) :
    Nat → Nat → Option (List filtered_string_view × Nat)
  | 0, _ => none
  | fuel + 1, segment_start =>
    if segment_start < fsv_end then do
      let tok_pos ← search m segment_start fsv_end tok_start (tok_start + tok_size)
      let seg ←
        if segment_start ≠ tok_pos then
          of_cstr m segment_start
            (fun a c => decide (segment_start ≤ a) && decide (a < tok_pos) && fsv.predicate a c)
        else of_cstr m lit (fun _ _ => false)
      if tok_pos = fsv_end then some ([seg], segment_start)
      else do
        let (result, last) ← split_loop m lit fsv fsv_end tok_start tok_size fuel
          (tok_pos + tok_size)
        some (seg :: result, last)
    else some ([], segment_start)

/-- The free function `split`.  A lambda of a segment captures the view by
reference; the view is taken to be unchanged while the segments are used. -/
def split (m : Mem) (lit : Nat) (fsv tok : filtered_string_view) :
    Option (List filtered_string_view) := do
  let fsv_start := fsv.data
  let n ← strlen m fsv.data
  let fsv_end := fsv_start + n
  let tok_start := tok.data
  let tok_size ← strlen m tok.data
  if tok_size = 0 then some [fsv]
  else do
    let sz ← fsv.size m
    if sz = 0 then some [fsv]
    else do
      let (result, segment_start) ←
        split_loop m lit fsv fsv_end tok_start tok_size (n + 1) fsv_start
      if segment_start = fsv_end then do
        let tail ← of_cstr m lit default_predicate
        some (result ++ [tail])
      else some result

/-! ## `substr` -/

/-- The `for` loop of `substr` over the memory that starts at `p`: the values
of `substr_start` and `substr_end` when the loop is left, and `none` when the
scan runs off the memory without meeting a `NUL`. -/
def substr_loop (pred : Filter) (pos target : Int) :
    List Char → Nat → Int → Nat → Option (Nat × Nat)
  | [], _, _, _ => none
  | c :: rest, p, index, substr_start =>
    if c = NUL then some (substr_start, nullptr)
    else if pred p c then
      let substr_start := if index = pos then p else substr_start
      if index = target then some (substr_start, p)
      else substr_loop pred pos target rest (p + 1) (wrap_int (index + 1)) substr_start
    else substr_loop pred pos target rest (p + 1) index substr_start

/-- The free function `substr`. -/
def substr (m : Mem) (lit : Nat) (fsv : filtered_string_view) (pos count : Int) :
    Option filtered_string_view := do
  let n ← strlen m fsv.data
  let total_size ← count_if m fsv.predicate fsv.data n
  if pos < 0 ∨ pos.toNat ≥ total_size then of_cstr m lit (fun _ _ => false)
  else do
    let rcount : Nat := if count ≤ 0 then total_size - pos.toNat else count.toNat
    let start := fsv.data
    let (substr_start, substr_end) ←
      substr_loop fsv.predicate pos (wrap_int (pos + wrap_int rcount)) (m.drop start) start 0
        nullptr
    if substr_start = nullptr then of_cstr m lit (fun _ _ => false)
    else do
      let substr_end ←
        if substr_end = nullptr then (strlen m fsv.data).map (start + ·) else some substr_end
      of_cstr m substr_start
        (fun a c => decide (substr_start ≤ a) && decide (a < substr_end) && fsv.predicate a c)

/-! ## `compose` -/

/-- The lambda `composed_predicate` of `compose`: the loop over the captured
filters, each called with the reference the lambda received. -/
def composed_predicate : List Filter → Filter
  | [], _, _ => true
  | f :: filts, a, c => if !f a c then false else composed_predicate filts a c

/-- The free function `compose`: the result is built by the constructor from a
null-terminated string, called with `fsv.data()`. -/
def compose (m : Mem) (fsv : filtered_string_view) (filts : List Filter) :
    Option filtered_string_view :=
  of_cstr m fsv.data (composed_predicate filts)

/-! ## Comparison operators -/

/-- The comparison `operator<=>` of two `std::string`, of the standard library:
characters are compared by their code, as `std::char_traits<char>` does, and a
proper prefix is less. -/
def string_compare : List Char → List Char → Ordering
  | [], [] => .eq
  | [], _ :: _ => .lt
  | _ :: _, [] => .gt
  | a :: as, b :: bs =>
    if a < b then .lt else if b < a then .gt else string_compare as bs

/-- The friend `operator==`. -/
def operator_eq (m : Mem) (lhs rhs : filtered_string_view) : Option Bool := do
  let lhs_filtered ← lhs.to_string m
  let rhs_filtered ← rhs.to_string m
  some (decide (lhs_filtered = rhs_filtered))

/-- The `operator!=` of the source file. -/
def operator_ne (m : Mem) (lhs rhs : filtered_string_view) : Option Bool := do
  let e ← operator_eq m lhs rhs
  some (!e)

/-- The friend `operator<=>`; `std::strong_ordering` is `Ordering`. -/
def operator_spaceship (m : Mem) (lhs rhs : filtered_string_view) : Option Ordering := do
  let lhs_filtered ← lhs.to_string m
  let rhs_filtered ← rhs.to_string m
  some (string_compare lhs_filtered rhs_filtered)

/-! ## Copy and move

The special member functions act on objects: a store gives the value of the
view object at every object address, and `this` and `other` are addresses. -/

/-- The view objects of a program state, by object address. -/
abbrev Store := Nat → filtered_string_view

/-- Copy constructor: the members of the object constructed. -/
def copy_construct (other : filtered_string_view) : filtered_string_view :=
  ⟨other._ptr, other._length, other._predicate⟩

/-- Move constructor: the members of the object constructed, and the members
of `other` when the body has run. -/
def move_construct (other : filtered_string_view) :
    filtered_string_view × filtered_string_view :=
  (⟨other._ptr, other._length, other._predicate⟩, ⟨nullptr, 0, default_predicate⟩)

/-- Copy assignment operator, on the objects at `this` and `other`. -/
def copy_assign (s : Store) (this other : Nat) : Store :=
  if this ≠ other then
    Function.update s this ⟨(s other)._ptr, (s other)._length, (s other)._predicate⟩
  else s

/-- Move assignment operator, on the objects at `this` and `other`. -/
def move_assign (s : Store) (this other : Nat) : Store :=
  if this ≠ other then
    let s1 := Function.update s this ⟨(s other)._ptr, (s other)._length, (s other)._predicate⟩
    Function.update s1 other ⟨nullptr, 0, default_predicate⟩
  else s

/-! ## Iterators -/

/-- The private members of `filtered_string_view::iter`; `_pred` points to the
predicate of the view, which is taken to be alive and unchanged. -/
structure iter where
  _ptr : Nat
  _pred : Filter

/-- The loop of `iter::advance` once `_ptr` has been incremented to `p`, over
the memory that starts at `p`: the position at which the loop is left, and
`none` when it reads outside the memory. -/
def advance_scan (pred : Filter) : List Char → Nat → Option Nat
  | [], p => if p = nullptr then some p else none
  | c :: rest, p =>
    if p ≠ nullptr ∧ !pred p c then advance_scan pred rest (p + 1) else some p

/-- The member function `iter::advance`. -/
def iter.advance (m : Mem) (it : iter) : Option iter := do
  let p ← advance_scan it._pred (m.drop (it._ptr + 1)) (it._ptr + 1)
  some ⟨p, it._pred⟩

/-- The loop of `iter::retreat` from the value `_ptr` has before it is
decremented: the position at which the loop is left.  A pointer decremented
inside the memory is never null, so the test `_ptr` of the loop holds at every
position that is read; a decrement that leaves the memory at its low end does
not give the null pointer either: it is undefined, as is the read there. -/
def retreat_scan (m : Mem) (pred : Filter) : Nat → Option Nat
  | 0 => none
  | p + 1 => do
    let c ← load m p
    if !pred p c then retreat_scan m pred p else some p

/-- The member function `iter::retreat`. -/
def iter.retreat (m : Mem) (it : iter) : Option iter := do
  let p ← retreat_scan m it._pred it._ptr
  some ⟨p, it._pred⟩

/-- The constructor `iter(const char* str, const filter* pred)`. -/
def iter.construct (m : Mem) (str : Nat) (pred : Filter) : Option iter :=
  if str = nullptr then some ⟨str, pred⟩
  else do
    let c ← load m str
    if !pred str c then iter.advance m ⟨str, pred⟩ else some ⟨str, pred⟩

/-- The dereference `operator*` of an iterator. -/
def iter.deref (m : Mem) (it : iter) : Option Char := load m it._ptr

/-- The comparison `operator==` of two iterators. -/
def iter.eq (a b : iter) : Bool := decide (a._ptr = b._ptr)

namespace filtered_string_view

/-- Member function `begin`. -/
def begin_ (m : Mem) (v : filtered_string_view) : Option iter :=
  iter.construct m v._ptr v._predicate

/-- Member function `end`. -/
def end_ (m : Mem) (v : filtered_string_view) : Option iter :=
  iter.construct m (v._ptr + v._length) v._predicate

end filtered_string_view

/-- A `std::reverse_iterator<iter>`: its base iterator. -/
structure reverse_iterator where
  current : iter

/-- The dereference of a reverse iterator: a copy of the base is decremented
and dereferenced. -/
def reverse_iterator.deref (m : Mem) (r : reverse_iterator) : Option Char := do
  let tmp ← r.current.retreat m
  tmp.deref m

/-- The increment of a reverse iterator: the base is decremented. -/
def reverse_iterator.next (m : Mem) (r : reverse_iterator) : Option reverse_iterator := do
  let c ← r.current.retreat m
  some ⟨c⟩

namespace filtered_string_view

/-- Member function `rbegin`. -/
def rbegin (m : Mem) (v : filtered_string_view) : Option reverse_iterator := do
  let e ← v.end_ m
  some ⟨e⟩

/-- Member function `rend`. -/
def rend (m : Mem) (v : filtered_string_view) : Option reverse_iterator := do
  let b ← v.begin_ m
  some ⟨b⟩

end filtered_string_view

/-- The traversal `for (; first != last; ++first)` that collects `*first`, as
the range constructor of `std::vector<char>` does.  The first argument bounds
the number of steps and `none` is returned when it is used up. -/
def collect (m : Mem) (last : iter) : Nat → iter → Option (List Char)
  | 0, _ => none
  | fuel + 1, first =>
    if first.eq last then some []
    else do
      let c ← first.deref m
      let next ← first.advance m
      let rest ← collect m last fuel next
      some (c :: rest)

/-- The same traversal over reverse iterators. -/
def rcollect (m : Mem) (last : reverse_iterator) : Nat → reverse_iterator → Option (List Char)
  | 0, _ => none
  | fuel + 1, first =>
    if first.current.eq last.current then some []
    else do
      let c ← first.deref m
      let next ← first.next m
      let rest ← rcollect m last fuel next
      some (c :: rest)

/-- The forward traversal `for (; first != last; ++first)` once more, recording
at each step the position of `first` next to the character `*first`: one entry
for each increment made before `first` compares equal to `last`. -/
def walk (m : Mem) (last : iter) : Nat → iter → Option (List (Nat × Char))
  | 0, _ => none
  | fuel + 1, first =>
    if first.eq last then some []
    else do
      let c ← first.deref m
      let next ← first.advance m
      let rest ← walk m last fuel next
      some ((first._ptr, c) :: rest)

/-- The characters of `std::vector<char>{v.begin(), v.end()}`.  Every step moves
the iterator forward inside the memory, so one step more than the size of the
memory is enough. -/
def forward_range (m : Mem) (v : filtered_string_view) : Option (List Char) := do
  let b ← v.begin_ m
  let e ← v.end_ m
  collect m e (m.length + 1) b

/-- The steps of the traversal from `v.begin()` to `v.end()`: the position and
the character of every iterator that is dereferenced and incremented. -/
def forward_steps (m : Mem) (v : filtered_string_view) : Option (List (Nat × Char)) := do
  let b ← v.begin_ m
  let e ← v.end_ m
  walk m e (m.length + 1) b

/-- The characters of `std::vector<char>{v.rbegin(), v.rend()}`. -/
def reverse_range (m : Mem) (v : filtered_string_view) : Option (List Char) := do
  let rb ← v.rbegin m
  let re ← v.rend m
  rcollect m re (m.length + 1) rb

/-! ## Specification vocabulary -/

deriving instance DecidableEq for Except

/-- The characters stored in the raw range `[p, p + n)`. -/
def raw_bytes (m : Mem) (p n : Nat) : List Char := (m.drop p).take n

/-- The raw range `[p, p + n)` as cells: each address with its character. -/
def raw_cells (m : Mem) (p n : Nat) : List (Nat × Char) :=
  (List.range' p n).zip (raw_bytes m p n)

/-- The characters of the cells that satisfy the predicate, in raw order. -/
def passing (pred : Filter) (cells : List (Nat × Char)) : List Char :=
  (cells.filter (fun ac => pred ac.1 ac.2)).map Prod.snd

/-- The raw range `[p, p + n)` can be read: it is empty, or `p` is not null and
the range lies inside the memory. -/
def readable (m : Mem) (p n : Nat) : Prop :=
  n = 0 ∨ (p ≠ nullptr ∧ p + n ≤ m.length)

instance (m : Mem) (p n : Nat) : Decidable (readable m p n) := by
  unfold readable; infer_instance

/-- The view is over a null-terminated buffer: `data()` addresses a C string
and the raw length of the view is the length of that string. -/
def nul_terminated (m : Mem) (v : filtered_string_view) : Prop :=
  strlen m v._ptr = some v._length

instance (m : Mem) (v : filtered_string_view) : Decidable (nul_terminated m v) := by
  unfold nul_terminated; infer_instance

/-- Offsets of the successive leftmost non-overlapping occurrences of `t` in a
sequence that is scanned from left to right and starts at offset `off`; `skip`
is the number of characters of the occurrence just found that are still to be
passed over. -/
def occurrences (t : List Char) : Nat → Nat → List Char → List Nat
  | _, _, [] => []
  | skip + 1, off, _ :: s => occurrences t skip (off + 1) s
  | 0, off, c :: s =>
    if t.isPrefixOf (c :: s) then off :: occurrences t (t.length - 1) (off + 1) s
    else occurrences t 0 (off + 1) s

/-- The pieces left of a sequence, from offset `start` on, when the occurrences
of length `tlen` at the given offsets are cut out of it. -/
def pieces {α : Type} (tlen : Nat) (s : List α) : Nat → List Nat → List (List α)
  | start, [] => [s.drop start]
  | start, o :: os => (s.drop start).take (o - start) :: pieces tlen s (o + tlen) os

/-- Offset at which the last piece starts: after the last occurrence, or at
`start` when there is no occurrence. -/
def last_start (tlen start : Nat) (occs : List Nat) : Nat :=
  match occs.getLast? with
  | none => start
  | some o => o + tlen

/-- The predicate of the view accepts the byte stored at `data() + length`, one
past the last raw character (the terminator of a null-terminated buffer). -/
def accepts_end (m : Mem) (v : filtered_string_view) : Bool :=
  match load m (v._ptr + v._length) with
  | some c => v._predicate (v._ptr + v._length) c
  | none => false

/-! ## Data of the examples -/

/-- Memory with `"Malamute"` at address 1 and `""` at address 10. -/
def mem_malamute : Mem := 'z' :: ("Malamute".toList ++ [NUL, NUL])

/-- The predicate `is_vowel` of the tests. -/
def is_vowel : Filter := fun _ c => "aAeEiIoOuU".toList.contains c

/-- The view of the test of `at`: `"Malamute"` filtered by `is_vowel`. -/
def sv_malamute : filtered_string_view := ⟨1, 8, is_vowel⟩

/-- Memory with `"only 90s kids understand"` at address 1. -/
def mem_kids : Mem := 'z' :: ("only 90s kids understand".toList ++ [NUL])

/-- The view of the test of the subscript operator. -/
def sv_kids : filtered_string_view :=
  ⟨1, 24, fun _ c => c == '9' || c == '0' || c == ' '⟩

/-- Cells of a byte sequence stored from address `p` on. -/
def cells_of (p : Nat) (bs : List Char) : List (Nat × Char) :=
  (List.range' p bs.length).zip bs

/-- The end address meant by a value of `substr_end`: the end of the buffer
when the value is still null. -/
def end_or (e last : Nat) : Nat := if e = nullptr then last else e

/-- Memory with `"Siberian Husky"` at address 1, `""` at address 16 and
`"Sled Dog"` at address 17. -/
def mem_dogs : Mem := 'z' :: ("Siberian Husky".toList ++ [NUL, NUL] ++ "Sled Dog".toList ++ [NUL])

/-- The view over `"Siberian Husky"` with the default predicate. -/
def sv_husky : filtered_string_view := ⟨1, 14, default_predicate⟩

/-- The view over `"Sled Dog"` that keeps the upper case letters. -/
def sv_sled : filtered_string_view := ⟨17, 8, fun _ c => c.isUpper⟩

/-- Memory with `"xax"` at address 1, `"x"` at address 5, `""` at address 7 and
`"xx"` at address 8. -/
def mem_x : Mem :=
  'z' :: ("xax".toList ++ [NUL] ++ "x".toList ++ [NUL] ++ [NUL] ++ "xx".toList ++ [NUL])

/-- The view over `"xax"`. -/
def sv_xax : filtered_string_view := ⟨1, 3, default_predicate⟩

/-- The token `"x"`. -/
def tok_x : filtered_string_view := ⟨5, 1, default_predicate⟩

/-- The view over `"xx"`. -/
def sv_xx : filtered_string_view := ⟨8, 2, default_predicate⟩

/-- Memory with `"0xDEADBEEF / 0xdeadbeef"` at address 1, `" / "` at address 25
and `""` at address 29. -/
def mem_hex : Mem :=
  'z' :: ("0xDEADBEEF / 0xdeadbeef".toList ++ [NUL] ++ " / ".toList ++ [NUL, NUL])

/-- The view of the test of `split`: hexadecimal letters, space and slash. -/
def sv_hex : filtered_string_view := ⟨1, 23, fun _ c => "aAbBcCdDeEfF /".toList.contains c⟩

/-- The token `" / "`. -/
def tok_slash : filtered_string_view := ⟨25, 3, default_predicate⟩

/-- Memory with `"c / c++"` at address 1. -/
def mem_c : Mem := 'z' :: ("c / c++".toList ++ [NUL])

/-- The view `best_languages` of the test of `compose`. -/
def sv_c : filtered_string_view := ⟨1, 7, default_predicate⟩

/-- The three filters of the test of `compose`. -/
def filts_c : List Filter :=
  [fun _ c => c == 'c' || c == '+' || c == '/', fun _ c => decide (c > ' '), fun _ _ => true]

/-- Memory with the characters of a `std::string` of size 3 that holds `a`,
`NUL`, `b`, at address 1, followed by its terminator. -/
def mem_nul : Mem := ['z', 'a', NUL, 'b', NUL]

/-- The view over the whole of that `std::string`. -/
def sv_nul : filtered_string_view := of_string 1 3 default_predicate

/-- Memory with `"abcdef"` at address 1, `"abxxxx"` at address 8 and `"ab"` at
address 15. -/
def mem_ab : Mem :=
  'z' :: ("abcdef".toList ++ [NUL] ++ "abxxxx".toList ++ [NUL] ++ "ab".toList ++ [NUL])

/-- The view `filtered_1` of the tests of the comparisons. -/
def sv_ab1 : filtered_string_view := ⟨1, 6, fun _ c => c == 'a' || c == 'b'⟩

/-- The view `filtered_2` of the tests of the comparisons. -/
def sv_ab2 : filtered_string_view := ⟨8, 6, fun _ c => c == 'a' || c == 'b'⟩

/-- Memory that ends with `"cat"` at address 1 and its terminator. -/
def mem_cat : Mem := 'z' :: ("cat".toList ++ [NUL])

/-- Memory with `"cat"` at address 1 and `"a"` at address 5. -/
def mem_cat_a : Mem := 'z' :: ("cat".toList ++ [NUL] ++ "a".toList ++ [NUL])

/-- The view of the test of the constructors: `"cat"` filtered by `c == 'a'`. -/
def sv_cat : filtered_string_view := ⟨1, 3, fun _ c => c == 'a'⟩

/-- A view over `"cat"` that passes no character. -/
def sv_cat_z : filtered_string_view := ⟨1, 3, fun _ c => c == 'z'⟩

/-- Memory with `"milo"` at address 1 and `"puppy"` at address 6. -/
def mem_milo : Mem := 'z' :: ("milo".toList ++ [NUL] ++ "puppy".toList ++ [NUL])

/-- The view `s2` of the test of the ranges: `"milo"` without `i` and `o`. -/
def sv_milo : filtered_string_view := ⟨1, 4, fun _ c => !(c == 'i' || c == 'o')⟩

/-- The view `s1` of the test of the ranges: `"puppy"` without `u` and `y`. -/
def sv_puppy : filtered_string_view := ⟨6, 5, fun _ c => !(c == 'u' || c == 'y')⟩

/-- A store whose object 0 is a default-constructed view and whose other
objects are views over `"Siberian Husky"`. -/
def store_dogs : Store := fun i => if i = 0 then mk_default else sv_husky

/-- Memory with `"aaaaa"` at address 1, `"aa"` at address 7 and `""` at address 10. -/
def mem_aa : Mem := 'z' :: ("aaaaa".toList ++ [NUL] ++ "aa".toList ++ [NUL, NUL])

/-- The view over `"aaaaa"` with the default predicate. -/
def sv_aaaaa : filtered_string_view := ⟨1, 5, default_predicate⟩

/-- The token `"aa"`. -/
def tok_aa : filtered_string_view := ⟨7, 2, default_predicate⟩

/-- Memory with `n` characters `Q` at address 1, then the terminator: the
buffer of `std::string(n, 'Q')`. -/
def mem_q (n : Nat) : Mem := 'z' :: (List.replicate n 'Q' ++ [NUL])

/-- The view over the `n` characters `Q`, with the default predicate. -/
def sv_q (n : Nat) : filtered_string_view := ⟨1, n, default_predicate⟩

/-! ## Memory lemmas -/

theorem wrap_int_id {x : Int} (h1 : INT_MIN ≤ x) (h2 : x ≤ INT_MAX) : wrap_int x = x := by
  unfold wrap_int
  unfold INT_MIN at h1
  unfold INT_MAX at h2
  omega

theorem readable_succ {m : Mem} {p k : Nat} (h : readable m p (k + 1)) :
    ∃ c, load m p = some c ∧ raw_cells m p (k + 1) = (p, c) :: raw_cells m (p + 1) k ∧
      raw_bytes m p (k + 1) = c :: raw_bytes m (p + 1) k ∧
      readable m (p + 1) k := by
  rcases h with h | ⟨hp, hle⟩
  · omega
  · have hlt : p < m.length := by omega
    refine ⟨m[p], ?_, ?_, ?_, ?_⟩
    · simp [load, hp, List.getElem?_eq_getElem hlt]
    · unfold raw_cells raw_bytes
      rw [List.drop_eq_getElem_cons hlt, List.range'_succ]
      rfl
    · unfold raw_bytes
      rw [List.drop_eq_getElem_cons hlt]
      rfl
    · right; exact ⟨by simp [nullptr], by omega⟩

theorem count_if_eq {m : Mem} (pred : Filter) :
    ∀ (k p : Nat), readable m p k →
      count_if m pred p k = some (passing pred (raw_cells m p k)).length := by
  intro k
  induction k with
  | zero => intro p _; simp [count_if, raw_cells, passing]
  | succ k ih =>
    intro p h
    obtain ⟨c, hc, hcells, -, hr⟩ := readable_succ h
    simp only [count_if, hc, ih (p + 1) hr, hcells, passing]
    by_cases hp : pred p c <;> simp [hp, List.filter_cons]

theorem to_string_loop_eq {m : Mem} (pred : Filter) :
    ∀ (k p : Nat), readable m p k →
      to_string_loop m pred p k = some (passing pred (raw_cells m p k)) := by
  intro k
  induction k with
  | zero => intro p _; simp [to_string_loop, raw_cells, passing]
  | succ k ih =>
    intro p h
    obtain ⟨c, hc, hcells, -, hr⟩ := readable_succ h
    simp only [to_string_loop, hc, ih (p + 1) hr, hcells, passing]
    by_cases hp : pred p c <;> simp [hp, List.filter_cons]

theorem nth_loop_found {m : Mem} (pred : Filter) (n : Int) (hn : n ≤ INT_MAX) :
    ∀ (k p : Nat) (idx : Int), readable m p k → 0 ≤ idx → idx ≤ n →
      nth_loop m pred n p k idx = some ((passing pred (raw_cells m p k))[(n - idx).toNat]?) := by
  intro k
  induction k with
  | zero => intro p idx _ _ _; simp [nth_loop, raw_cells, passing]
  | succ k ih =>
    intro p idx h h0 hle
    obtain ⟨c, hc, hcells, -, hr⟩ := readable_succ h
    simp only [nth_loop, hc, hcells, passing]
    by_cases hp : pred p c
    · by_cases he : idx = n
      · simp [hp, he, List.filter_cons]
      · have hlt : idx < n := lt_of_le_of_ne hle he
        have hw : wrap_int (idx + 1) = idx + 1 :=
          wrap_int_id (by unfold INT_MIN; omega) (by omega)
        have hidx : (n - idx).toNat = (n - (idx + 1)).toNat + 1 := by omega
        simp only [Option.bind_eq_bind, Option.some_bind, hp, he, hw, if_true, if_false,
          ih (p + 1) (idx + 1) hr (by omega) (by omega), List.filter_cons, passing, hidx,
          List.map_cons, List.getElem?_cons_succ]
    · simp [hp, List.filter_cons, ih (p + 1) idx hr h0 hle, passing]

theorem nth_loop_none {m : Mem} (pred : Filter) (n : Int) :
    ∀ (k p : Nat) (idx : Int), readable m p k → 0 ≤ idx → n < idx → idx + k ≤ INT_MAX →
      nth_loop m pred n p k idx = some none := by
  intro k
  induction k with
  | zero => intro p idx _ _ _ _; simp [nth_loop]
  | succ k ih =>
    intro p idx h h0 hlt hmax
    obtain ⟨c, hc, -, -, hr⟩ := readable_succ h
    have he : idx ≠ n := by omega
    have hw : wrap_int (idx + 1) = idx + 1 :=
      wrap_int_id (by unfold INT_MIN; omega) (by push_cast at hmax; omega)
    simp only [nth_loop, hc, Option.bind_eq_bind, Option.some_bind, he, if_false, hw]
    by_cases hp : pred p c
    · simp only [hp, if_true]
      exact ih (p + 1) (idx + 1) hr (by omega) (by omega) (by push_cast at hmax; omega)
    · simp only [hp]
      exact ih (p + 1) idx hr h0 hlt (by push_cast at hmax; omega)

theorem size_eq {m : Mem} {v : filtered_string_view} (h : readable m v._ptr v._length) :
    v.size m = some (passing v._predicate (raw_cells m v._ptr v._length)).length :=
  count_if_eq v._predicate v._length v._ptr h

theorem to_string_eq {m : Mem} {v : filtered_string_view} (h : readable m v._ptr v._length) :
    v.to_string m = some (passing v._predicate (raw_cells m v._ptr v._length)) :=
  to_string_loop_eq v._predicate v._length v._ptr h

theorem at_in_range {m : Mem} {v : filtered_string_view} {i : Int} {sz : Nat}
    (hm : readable m v._ptr v._length) (hsz : v.size m = some sz)
    (h0 : 0 ≤ i) (hi : i < sz) (hint : i ≤ INT_MAX) :
    ∃ c, (passing v._predicate (raw_cells m v._ptr v._length))[i.toNat]? = some c ∧
      nth_loop m v._predicate i v._ptr v._length 0 = some (some c) ∧
      v.at_ m i = some (.ok c) := by
  have hs := size_eq hm
  rw [hsz] at hs
  injection hs with hs
  have hlt : i.toNat < (passing v._predicate (raw_cells m v._ptr v._length)).length := by
    omega
  have hloop := nth_loop_found v._predicate i hint v._length v._ptr 0 hm le_rfl h0
  rw [sub_zero, List.getElem?_eq_getElem hlt] at hloop
  refine ⟨_, List.getElem?_eq_getElem hlt, hloop, ?_⟩
  have hge : ¬ (i.toNat ≥ sz) := by omega
  simp only [at_, hsz, hloop, not_lt.mpr h0, hge, if_false, Option.bind_eq_bind,
    Option.some_bind]

/-! ## Lemmas on C strings and on the loop of `substr` -/

theorem cells_of_nil (p : Nat) : cells_of p [] = [] := rfl

theorem cells_of_cons (p : Nat) (c : Char) (bs : List Char) :
    cells_of p (c :: bs) = (p, c) :: cells_of (p + 1) bs := by
  simp [cells_of, List.range'_succ]

theorem cells_of_append (p : Nat) (as bs : List Char) :
    cells_of p (as ++ bs) = cells_of p as ++ cells_of (p + as.length) bs := by
  induction as generalizing p with
  | nil => simp [cells_of_nil]
  | cons a as ih =>
    simp only [List.cons_append, cells_of_cons, ih, List.length_cons]
    congr 3
    omega

theorem cells_of_mem {p : Nat} {bs : List Char} {ac : Nat × Char} (h : ac ∈ cells_of p bs) :
    p ≤ ac.1 ∧ ac.1 < p + bs.length := by
  induction bs generalizing p with
  | nil => simp [cells_of_nil] at h
  | cons b bs ih =>
    rw [cells_of_cons] at h
    rcases List.mem_cons.mp h with h | h
    · subst h; simp
    · have := ih h
      simp only [List.length_cons]
      omega

theorem strlen_from_some {l : List Char} {n : Nat} (h : strlen_from l = some n) :
    ∃ bs rest, l = bs ++ NUL :: rest ∧ bs.length = n ∧ NUL ∉ bs := by
  induction l generalizing n with
  | nil => simp [strlen_from] at h
  | cons c cs ih =>
    unfold strlen_from at h
    by_cases hc : c = NUL
    · simp only [hc, if_true, Option.some.injEq] at h
      exact ⟨[], cs, by simp [hc], by simp [h], by simp⟩
    · simp only [hc, if_false, Option.map_eq_some'] at h
      obtain ⟨k, hk, hn⟩ := h
      obtain ⟨bs, rest, hl, hlen, hnul⟩ := ih hk
      refine ⟨c :: bs, rest, by simp [hl], by simp [hlen, hn], ?_⟩
      simp only [List.mem_cons, not_or]
      exact ⟨fun h => hc h.symm, hnul⟩

theorem strlen_from_append {bs rest : List Char} (h : NUL ∉ bs) :
    strlen_from (bs ++ NUL :: rest) = some bs.length := by
  induction bs with
  | nil => simp [strlen_from]
  | cons b bs ih =>
    simp only [List.mem_cons, not_or] at h
    have hb : b ≠ NUL := fun e => h.1 e.symm
    simp [strlen_from, hb, ih h.2]

theorem strlen_spec {m : Mem} {p n : Nat} (h : strlen m p = some n) :
    p ≠ nullptr ∧ p + n < m.length ∧ (raw_bytes m p n).length = n ∧ NUL ∉ raw_bytes m p n ∧
      ∃ rest, m.drop p = raw_bytes m p n ++ NUL :: rest := by
  unfold strlen at h
  by_cases hp : p = nullptr
  · simp [hp] at h
  · simp only [hp, if_false] at h
    obtain ⟨bs, rest, hl, hlen, hnul⟩ := strlen_from_some h
    have hbs : raw_bytes m p n = bs := by
      unfold raw_bytes
      rw [hl, ← hlen]
      simp
    have hlen2 : (m.drop p).length = n + 1 + rest.length := by
      rw [hl]; simp [hlen]; omega
    rw [List.length_drop] at hlen2
    exact ⟨hp, by omega, by rw [hbs]; exact hlen, by rw [hbs]; exact hnul,
      rest, by rw [hbs]; exact hl⟩

theorem strlen_readable {m : Mem} {p n : Nat} (h : strlen m p = some n) :
    readable m p n := by
  obtain ⟨hp, hlt, -⟩ := strlen_spec h
  exact Or.inr ⟨hp, by omega⟩

theorem raw_cells_eq_cells_of {m : Mem} {p n : Nat} (h : (raw_bytes m p n).length = n) :
    raw_cells m p n = cells_of p (raw_bytes m p n) := by
  unfold raw_cells cells_of
  rw [h]

theorem strlen_interior {m : Mem} {p n j : Nat} (h : strlen m p = some n) (hj : j ≤ n) :
    strlen m (p + j) = some (n - j) ∧
      raw_bytes m (p + j) (n - j) = (raw_bytes m p n).drop j := by
  obtain ⟨hp, hlt, hlen, hnul, rest, hl⟩ := strlen_spec h
  have hp' : p + j ≠ nullptr := by
    unfold nullptr at hp ⊢
    omega
  have hdrop : m.drop (p + j) = (raw_bytes m p n).drop j ++ NUL :: rest := by
    rw [← List.drop_drop, hl, List.drop_append_of_le_length (by omega)]
  have hnul' : NUL ∉ (raw_bytes m p n).drop j := fun hmem => hnul (List.mem_of_mem_drop hmem)
  constructor
  · unfold strlen
    simp only [hp', if_false]
    rw [hdrop, strlen_from_append hnul']
    simp [hlen]
  · conv_lhs => unfold raw_bytes
    rw [hdrop]
    have : ((raw_bytes m p n).drop j).length = n - j := by simp [hlen]
    rw [← this]
    simp

theorem passing_nil (pred : Filter) : passing pred [] = [] := rfl

theorem passing_cons (pred : Filter) (a : Nat) (c : Char) (l : List (Nat × Char)) :
    passing pred ((a, c) :: l) = if pred a c then c :: passing pred l else passing pred l := by
  by_cases h : pred a c <;> simp [passing, List.filter_cons, h]

theorem passing_append (pred : Filter) (l₁ l₂ : List (Nat × Char)) :
    passing pred (l₁ ++ l₂) = passing pred l₁ ++ passing pred l₂ := by
  simp [passing]

theorem substr_loop_after (pred : Filter) (pos T : Int) (rest : List Char) (h0 : 0 ≤ pos) :
    ∀ (bs : List Char) (p : Nat) (idx : Int) (s0 : Nat),
      NUL ∉ bs → p ≠ nullptr → pos < idx → idx + bs.length ≤ INT_MAX →
      ∃ e, substr_loop pred pos T (bs ++ NUL :: rest) p idx s0 = some (s0, e) ∧
        p ≤ end_or e (p + bs.length) ∧ end_or e (p + bs.length) ≤ p + bs.length ∧
        passing pred ((cells_of p bs).filter
            (fun ac => decide (ac.1 < end_or e (p + bs.length)))) =
          if T < idx then passing pred (cells_of p bs)
          else (passing pred (cells_of p bs)).take (T - idx).toNat := by
  intro bs
  induction bs with
  | nil =>
    intro p idx s0 _ _ _ _
    exact ⟨nullptr, by simp [substr_loop], by simp [end_or], by simp [end_or],
      by simp [cells_of_nil, passing_nil]⟩
  | cons b bs ih =>
    intro p idx s0 hnul hp hlt hmax
    simp only [List.mem_cons, not_or] at hnul
    have hb : b ≠ NUL := fun e => hnul.1 e.symm
    have hne : idx ≠ pos := by omega
    simp only [List.length_cons, Nat.cast_add, Nat.cast_one] at hmax
    have hw : wrap_int (idx + 1) = idx + 1 :=
      wrap_int_id (by unfold INT_MIN; omega) (by omega)
    have hp1 : p + 1 ≠ nullptr := by unfold nullptr; omega
    have hlen : p + 1 + bs.length = p + (b :: bs).length := by
      simp only [List.length_cons]; omega
    simp only [List.cons_append, substr_loop, hb, if_false, hne, hw, cells_of_cons]
    by_cases hpred : pred p b
    · simp only [hpred, if_true]
      by_cases hT : idx = T
      · refine ⟨p, by simp [hT], by simp [end_or, hp], by simp [end_or, hp], ?_⟩
        have hfil : ((p, b) :: cells_of (p + 1) bs).filter
            (fun ac => decide (ac.1 < end_or p (p + (b :: bs).length))) = [] := by
          rw [List.filter_eq_nil_iff]
          intro ac hac
          have hge : p ≤ ac.1 := by
            rcases List.mem_cons.mp hac with h | h
            · subst h; simp
            · have := (cells_of_mem h).1; omega
          simp [end_or, hp, hge]
        rw [hfil]
        simp [hT, passing_nil]
      · obtain ⟨e, he, hlo, hhi, hpass⟩ := ih (p + 1) (idx + 1) s0 hnul.2 hp1 (by omega)
          (by omega)
        rw [hlen] at hlo hhi hpass
        refine ⟨e, by simp [hT, he], by omega, hhi, ?_⟩
        have hin : p < end_or e (p + (b :: bs).length) := by omega
        rw [List.filter_cons]
        simp only [hin, decide_True, if_true, passing_cons, hpred, hpass]
        by_cases hTlt : T < idx
        · have : T < idx + 1 := by omega
          simp [hTlt, this]
        · have h1 : ¬ T < idx + 1 := by omega
          have h2 : (T - idx).toNat = (T - (idx + 1)).toNat + 1 := by omega
          simp [hTlt, h1, h2]
    · simp only [hpred]
      obtain ⟨e, he, hlo, hhi, hpass⟩ := ih (p + 1) idx s0 hnul.2 hp1 hlt (by omega)
      rw [hlen] at hlo hhi hpass
      refine ⟨e, by simpa using he, by omega, hhi, ?_⟩
      have hin : p < end_or e (p + (b :: bs).length) := by omega
      rw [List.filter_cons]
      simp only [hin, decide_True, if_true, passing_cons, hpred, hpass]
      simp

theorem substr_loop_before (pred : Filter) (pos T : Int) (rest : List Char)
    (hT : T < 0 ∨ pos < T) :
    ∀ (bs : List Char) (p : Nat) (idx : Int) (s0 : Nat),
      NUL ∉ bs → p ≠ nullptr → 0 ≤ idx → idx ≤ pos → idx + bs.length ≤ INT_MAX →
      (pos - idx).toNat < (passing pred (cells_of p bs)).length →
      ∃ s e, substr_loop pred pos T (bs ++ NUL :: rest) p idx s0 = some (s, e) ∧
        p ≤ s ∧ s ≤ end_or e (p + bs.length) ∧ end_or e (p + bs.length) ≤ p + bs.length ∧
        passing pred ((cells_of p bs).filter
            (fun ac => decide (s ≤ ac.1) && decide (ac.1 < end_or e (p + bs.length)))) =
          if T < 0 then (passing pred (cells_of p bs)).drop (pos - idx).toNat
          else ((passing pred (cells_of p bs)).drop (pos - idx).toNat).take (T - pos).toNat := by
  intro bs
  induction bs with
  | nil =>
    intro p idx s0 _ _ _ _ _ hex
    simp [cells_of_nil, passing_nil] at hex
  | cons b bs ih =>
    intro p idx s0 hnul hp h0 hle hmax hex
    simp only [List.mem_cons, not_or] at hnul
    have hb : b ≠ NUL := fun e => hnul.1 e.symm
    simp only [List.length_cons, Nat.cast_add, Nat.cast_one] at hmax
    have hw : wrap_int (idx + 1) = idx + 1 :=
      wrap_int_id (by unfold INT_MIN; omega) (by omega)
    have hp1 : p + 1 ≠ nullptr := by unfold nullptr; omega
    have hlen : p + 1 + bs.length = p + (bs.length + 1) := by omega
    have hneT : idx ≠ T := by omega
    simp only [List.cons_append, substr_loop, hb, if_false, hneT, hw, cells_of_cons,
      List.length_cons]
    rw [cells_of_cons, passing_cons] at hex
    by_cases hpred : pred p b
    · simp only [hpred, if_true] at hex ⊢
      by_cases hpos : idx = pos
      · obtain ⟨e, he, hlo, hhi, hpass⟩ := substr_loop_after pred pos T rest (by omega)
          bs (p + 1) (idx + 1) p hnul.2 hp1 (by omega) (by omega)
        rw [hlen] at hlo hhi hpass
        refine ⟨p, e, by simp only [if_pos hpos]; exact he, le_rfl, by omega, hhi, ?_⟩
        have hin : p < end_or e (p + (bs.length + 1)) := by omega
        have hcongr : (cells_of (p + 1) bs).filter
            (fun ac => decide (p ≤ ac.1) && decide (ac.1 < end_or e (p + (bs.length + 1)))) =
            (cells_of (p + 1) bs).filter
              (fun ac => decide (ac.1 < end_or e (p + (bs.length + 1)))) := by
          apply List.filter_congr
          intro ac hac
          have := (cells_of_mem hac).1
          have hge : p ≤ ac.1 := by omega
          simp [hge]
        rw [List.filter_cons]
        simp only [le_refl, hin, decide_True, Bool.and_self, if_true, passing_cons, hpred,
          hcongr, hpass]
        have hz : (pos - idx).toNat = 0 := by omega
        rcases hT with hT | hT
        · have : T < idx + 1 := by omega
          simp [hT, this, hz]
        · have h1 : ¬ T < idx + 1 := by omega
          have h2 : ¬ T < 0 := by omega
          have h3 : (T - pos).toNat = (T - (idx + 1)).toNat + 1 := by omega
          simp [h1, h2, h3, hz]
      · simp only [List.length_cons] at hex
        obtain ⟨s, e, he, hps, hlo, hhi, hpass⟩ := ih (p + 1) (idx + 1) s0 hnul.2 hp1
          (by omega) (by omega) (by omega) (by omega)
        rw [hlen] at hlo hhi hpass
        refine ⟨s, e, by simp [hpos, he], by omega, hlo, hhi, ?_⟩
        have hout : ¬ s ≤ p := by omega
        rw [List.filter_cons]
        simp only [hout, decide_False, Bool.false_and, hpass, passing_cons, hpred, if_true]
        have h3 : (pos - idx).toNat = (pos - (idx + 1)).toNat + 1 := by omega
        simp [h3, hpass]
    · simp only [hpred] at hex ⊢
      obtain ⟨s, e, he, hps, hlo, hhi, hpass⟩ := ih (p + 1) idx s0 hnul.2 hp1 h0 hle
        (by omega) (by simpa using hex)
      rw [hlen] at hlo hhi hpass
      refine ⟨s, e, by simpa using he, by omega, hlo, hhi, ?_⟩
      have hout : ¬ s ≤ p := by omega
      rw [List.filter_cons]
      simp only [hout, decide_False, Bool.false_and, hpass, passing_cons, hpred]
      simp [hpass]

theorem passing_window (pred : Filter) (s e : Nat) (l : List (Nat × Char)) :
    passing (fun a c => decide (s ≤ a) && decide (a < e) && pred a c) l =
      passing pred (l.filter (fun ac => decide (s ≤ ac.1) && decide (ac.1 < e))) := by
  induction l with
  | nil => rfl
  | cons ac l ih =>
    obtain ⟨a, c⟩ := ac
    rw [passing_cons, List.filter_cons, ih]
    by_cases hw : (decide (s ≤ a) && decide (a < e)) = true
    · simp only [hw, Bool.true_and, if_true, passing_cons]
    · simp only [hw, Bool.false_and, if_false]
      simp

theorem passing_length_le (pred : Filter) (l : List (Nat × Char)) :
    (passing pred l).length ≤ l.length := by
  simp only [passing, List.length_map]
  exact List.length_filter_le _ _

theorem cells_of_length (p : Nat) (bs : List Char) : (cells_of p bs).length = bs.length := by
  simp [cells_of]

/-- A view built by the constructor from `const char*` at an address `s` inside
a C string, with a predicate that keeps the addresses of `[s, e)`: its string
conversion is the passing characters of the cells of the C string in `[s, e)`. -/
theorem window_view {m : Mem} {start n s : Nat} (pred : Filter) (e : Nat)
    (h : strlen m start = some n) (hs : start ≤ s) (hse : s ≤ start + n) :
    ∃ w, of_cstr m s (fun a c => decide (s ≤ a) && decide (a < e) && pred a c) = some w ∧
      w._ptr = s ∧ w._length = start + n - s ∧
      w._predicate = (fun a c => decide (s ≤ a) && decide (a < e) && pred a c) ∧
      w.to_string m = some (passing pred ((raw_cells m start n).filter
        (fun ac => decide (s ≤ ac.1) && decide (ac.1 < e)))) := by
  obtain ⟨j, rfl⟩ : ∃ j, s = start + j := ⟨s - start, by omega⟩
  have hj : j ≤ n := by omega
  obtain ⟨hstr, hbytes⟩ := strlen_interior h hj
  obtain ⟨-, -, hlen, -, -⟩ := strlen_spec h
  obtain ⟨-, -, hlen', -, -⟩ := strlen_spec hstr
  refine ⟨⟨start + j, n - j,
    fun a c => decide (start + j ≤ a) && decide (a < e) && pred a c⟩,
    by simp [of_cstr, hstr], rfl, by simp only; omega, rfl, ?_⟩
  have hts := to_string_eq (m := m)
    (v := ⟨start + j, n - j, fun a c => decide (start + j ≤ a) && decide (a < e) && pred a c⟩)
    (strlen_readable hstr)
  rw [hts]
  simp only
  rw [passing_window, raw_cells_eq_cells_of hlen', raw_cells_eq_cells_of hlen, hbytes]
  have hsplit : cells_of start (raw_bytes m start n) =
      cells_of start ((raw_bytes m start n).take j) ++
        cells_of (start + j) ((raw_bytes m start n).drop j) := by
    conv_lhs => rw [← List.take_append_drop j (raw_bytes m start n)]
    rw [cells_of_append]
    simp [hlen, hj]
  have hfront : (cells_of start ((raw_bytes m start n).take j)).filter
      (fun ac => decide (start + j ≤ ac.1) && decide (ac.1 < e)) = [] := by
    rw [List.filter_eq_nil_iff]
    intro ac hac
    have := (cells_of_mem hac).2
    simp only [List.length_take, hlen] at this
    have hlt : ¬ start + j ≤ ac.1 := by omega
    simp [hlt]
  rw [hsplit, List.filter_append, hfront, List.nil_append]

theorem empty_view {m : Mem} {lit : Nat} (hlit : strlen m lit = some 0) (pred : Filter) :
    of_cstr m lit pred = some ⟨lit, 0, pred⟩ := by
  simp [of_cstr, hlit]

theorem wrap_int_high {x : Int} (h1 : INT_MAX < x) (h2 : x ≤ 2 * INT_MAX) :
    wrap_int x = x - 4294967296 := by
  unfold wrap_int
  unfold INT_MAX at h1 h2
  omega

theorem substr_target {sz len : Nat} {pos count : Int} (rcount : Nat)
    (hle : sz ≤ len) (hlen : (len : Int) ≤ INT_MAX)
    (hpos0 : 0 ≤ pos) (hpos : pos < sz) (hcount : INT_MIN ≤ count ∧ count ≤ INT_MAX)
    (hr : rcount = if count ≤ 0 then sz - pos.toNat else count.toNat) :
    ∃ T, wrap_int (pos + wrap_int rcount) = T ∧ (T < 0 ∨ pos < T) ∧
      ∀ P : List Char, P.length = sz →
      (if T < 0 then P.drop (pos - 0).toNat else (P.drop (pos - 0).toNat).take (T - pos).toNat) =
        (if 0 < count then (P.drop pos.toNat).take count.toNat else P.drop pos.toNat) := by
  unfold INT_MAX at hlen hcount
  unfold INT_MIN at hcount
  by_cases hc : count ≤ 0
  · rw [if_pos hc] at hr
    have e1 : INT_MIN ≤ (rcount : Int) := by unfold INT_MIN; omega
    have e2 : (rcount : Int) ≤ INT_MAX := by unfold INT_MAX; omega
    have e3 : INT_MIN ≤ pos + (rcount : Int) := by unfold INT_MIN; omega
    have e4 : pos + (rcount : Int) ≤ INT_MAX := by unfold INT_MAX; omega
    have e5 : pos + (rcount : Int) = sz := by omega
    have h2 : ¬ 0 < count := by omega
    have h1 : ¬ (sz : Int) < 0 := by omega
    refine ⟨sz, by rw [wrap_int_id e1 e2, wrap_int_id e3 e4, e5], Or.inr hpos, ?_⟩
    intro P hP
    simp only [h1, h2, if_false, sub_zero]
    apply List.take_of_length_le
    rw [List.length_drop, hP]
    omega
  · rw [if_neg hc] at hr
    have e1 : INT_MIN ≤ (rcount : Int) := by unfold INT_MIN; omega
    have e2 : (rcount : Int) ≤ INT_MAX := by unfold INT_MAX; omega
    have e0 : (rcount : Int) = count := by omega
    have h2 : 0 < count := by omega
    by_cases hov : pos + count ≤ 2147483647
    · have e3 : INT_MIN ≤ pos + count := by unfold INT_MIN; omega
      have e4 : pos + count ≤ INT_MAX := by unfold INT_MAX; omega
      have h1 : ¬ pos + count < 0 := by omega
      refine ⟨pos + count, by rw [wrap_int_id e1 e2, e0, wrap_int_id e3 e4],
        Or.inr (by omega), ?_⟩
      intro P _
      simp only [h1, h2, if_false, if_true, sub_zero]
      congr 1
      omega
    · have e3 : INT_MAX < pos + count := by unfold INT_MAX; omega
      have e4 : pos + count ≤ 2 * INT_MAX := by unfold INT_MAX; omega
      have h1 : pos + count - 4294967296 < 0 := by omega
      refine ⟨pos + count - 4294967296,
        by rw [wrap_int_id e1 e2, e0, wrap_int_high e3 e4], Or.inl h1, ?_⟩
      intro P hP
      simp only [h1, h2, if_true, sub_zero]
      symm
      apply List.take_of_length_le
      rw [List.length_drop, hP]
      omega

/-! ## Lemmas on the loop of `split` -/

theorem bytes_eq {m : Mem} : ∀ (k p : Nat), readable m p k →
    bytes m p k = some (raw_bytes m p k) := by
  intro k
  induction k with
  | zero => intro p _; simp [bytes, raw_bytes]
  | succ k ih =>
    intro p h
    obtain ⟨c, hc, -, hb, hr⟩ := readable_succ h
    simp [bytes, hc, ih (p + 1) hr, hb]

theorem occurrences_skip (t : List Char) : ∀ (s : List Char) (skip off : Nat),
    skip ≤ s.length → occurrences t skip off s = occurrences t 0 (off + skip) (s.drop skip) := by
  intro s
  induction s with
  | nil => intro skip off h; simp at h; subst h; rfl
  | cons c s ih =>
    intro skip off h
    cases skip with
    | zero => rfl
    | succ k =>
      simp only [List.length_cons, Nat.add_le_add_iff_right] at h
      rw [occurrences, ih k (off + 1) h, List.drop_succ_cons]
      congr 1
      omega

theorem search_list_spec (t : List Char) (ht : t ≠ []) : ∀ (r : List Char) (off : Nat),
    (search_list t r = r.length ∧ occurrences t 0 off r = []) ∨
    (search_list t r + t.length ≤ r.length ∧
      occurrences t 0 off r = (off + search_list t r) ::
        occurrences t 0 (off + search_list t r + t.length) (r.drop (search_list t r + t.length)))
    := by
  have hk : 1 ≤ t.length := by
    cases t with
    | nil => exact absurd rfl ht
    | cons _ _ => simp
  intro r
  induction r with
  | nil => intro off; left; exact ⟨rfl, rfl⟩
  | cons c s ih =>
    intro off
    by_cases hpre : t.isPrefixOf (c :: s) = true
    · right
      have hlen : t.length ≤ (c :: s).length := (List.isPrefixOf_iff_prefix.mp hpre).length_le
      simp only [List.length_cons] at hlen
      have hs : search_list t (c :: s) = 0 := by simp [search_list, hpre]
      rw [hs]
      refine ⟨by simp only [List.length_cons]; omega, ?_⟩
      rw [occurrences, if_pos hpre, occurrences_skip t s (t.length - 1) (off + 1) (by omega)]
      have hd : (c :: s).drop (0 + t.length) = s.drop (t.length - 1) := by
        obtain ⟨k, hk'⟩ : ∃ k, t.length = k + 1 := ⟨t.length - 1, by omega⟩
        rw [hk']
        simp
      rw [hd]
      congr 2
      omega
    · have hs : search_list t (c :: s) = search_list t s + 1 := by simp [search_list, hpre]
      have ho : occurrences t 0 off (c :: s) = occurrences t 0 (off + 1) s := by
        rw [occurrences, if_neg hpre]
      rw [hs, ho]
      rcases ih (off + 1) with ⟨h1, h2⟩ | ⟨h1, h2⟩
      · left; exact ⟨by simp [h1], h2⟩
      · right
        refine ⟨by simp only [List.length_cons]; omega, ?_⟩
        rw [h2]
        have hd : (c :: s).drop (search_list t s + 1 + t.length) =
            s.drop (search_list t s + t.length) := by
          rw [show search_list t s + 1 + t.length = (search_list t s + t.length) + 1 by omega]
          simp
        rw [hd, show off + (search_list t s + 1) = off + 1 + search_list t s by omega]

theorem search_list_le (t : List Char) : ∀ (r : List Char), search_list t r ≤ r.length := by
  intro r
  induction r with
  | nil => simp [search_list]
  | cons c s ih =>
    by_cases hpre : t.isPrefixOf (c :: s) = true
    · simp [search_list, hpre]
    · have hs : search_list t (c :: s) = search_list t s + 1 := by simp [search_list, hpre]
      rw [hs, List.length_cons]
      omega

/-- The model of `std::search` returns an occurrence: when the offset found is
inside the sequence, the pattern is a prefix of what starts there. -/
theorem search_list_is_occurrence (t : List Char) : ∀ (r : List Char),
    search_list t r < r.length → t.isPrefixOf (r.drop (search_list t r)) = true := by
  intro r
  induction r with
  | nil => intro h; simp at h
  | cons c s ih =>
    intro h
    by_cases hpre : t.isPrefixOf (c :: s) = true
    · simp [search_list, hpre]
    · have hs : search_list t (c :: s) = search_list t s + 1 := by simp [search_list, hpre]
      rw [hs] at h ⊢
      simp only [List.length_cons, Nat.add_lt_add_iff_right] at h
      simpa using ih h

/-- The model of `std::search` returns the first occurrence: a non-empty
pattern is not a prefix of what starts at any smaller offset. -/
theorem search_list_is_leftmost (t : List Char) : ∀ (r : List Char) (i : Nat),
    i < search_list t r → t.isPrefixOf (r.drop i) = false := by
  intro r
  induction r with
  | nil => intro i h; simp [search_list] at h
  | cons c s ih =>
    intro i h
    by_cases hpre : t.isPrefixOf (c :: s) = true
    · simp [search_list, hpre] at h
    · have hs : search_list t (c :: s) = search_list t s + 1 := by simp [search_list, hpre]
      rw [hs] at h
      cases i with
      | zero => rw [List.drop_zero]; exact Bool.eq_false_iff.mpr hpre
      | succ j =>
        rw [List.drop_succ_cons]
        exact ih j (by omega)

theorem cells_window (p : Nat) (bs : List Char) (i j : Nat) (hij : i + j ≤ bs.length) :
    (cells_of p bs).filter (fun ac => decide (p + i ≤ ac.1) && decide (ac.1 < p + i + j)) =
      ((cells_of p bs).drop i).take j := by
  have hsplit : bs = bs.take i ++ ((bs.drop i).take j ++ (bs.drop i).drop j) := by
    rw [List.take_append_drop, List.take_append_drop]
  have hl1 : (bs.take i).length = i := by simp; omega
  have hl2 : ((bs.drop i).take j).length = j := by simp; omega
  have hc : cells_of p bs = cells_of p (bs.take i) ++
      (cells_of (p + i) ((bs.drop i).take j) ++ cells_of (p + i + j) ((bs.drop i).drop j)) := by
    conv_lhs => rw [hsplit]
    rw [cells_of_append, cells_of_append, hl1, hl2]
  rw [hc, List.filter_append, List.filter_append]
  have h1 : (cells_of p (bs.take i)).filter
      (fun ac => decide (p + i ≤ ac.1) && decide (ac.1 < p + i + j)) = [] := by
    rw [List.filter_eq_nil_iff]
    intro ac hac
    have := (cells_of_mem hac).2
    rw [hl1] at this
    have hlt : ¬ p + i ≤ ac.1 := by omega
    simp [hlt]
  have h2 : (cells_of (p + i) ((bs.drop i).take j)).filter
      (fun ac => decide (p + i ≤ ac.1) && decide (ac.1 < p + i + j)) =
        cells_of (p + i) ((bs.drop i).take j) := by
    rw [List.filter_eq_self]
    intro ac hac
    have := cells_of_mem hac
    rw [hl2] at this
    simp [this.1, this.2]
  have h3 : (cells_of (p + i + j) ((bs.drop i).drop j)).filter
      (fun ac => decide (p + i ≤ ac.1) && decide (ac.1 < p + i + j)) = [] := by
    rw [List.filter_eq_nil_iff]
    intro ac hac
    have := (cells_of_mem hac).1
    have hlt : ¬ ac.1 < p + i + j := by omega
    simp [hlt]
  rw [h1, h2, h3, List.nil_append]
  have hlc1 : (cells_of p (bs.take i)).length = i := by rw [cells_of_length, hl1]
  have hlc2 : (cells_of (p + i) ((bs.drop i).take j)).length = j := by
    rw [cells_of_length, hl2]
  rw [List.drop_left' hlc1, List.append_nil, List.take_left' hlc2]


theorem split_search {m : Mem} {p n tok k off : Nat}
    (hv : strlen m p = some n) (hk : strlen m tok = some k) (hoff : off ≤ n) :
    search m (p + off) (p + n) tok (tok + k) =
      some (p + off + search_list (raw_bytes m tok k) ((raw_bytes m p n).drop off)) := by
  obtain ⟨hstr, hbytes⟩ := strlen_interior hv hoff
  have h1 : p + n - (p + off) = n - off := by omega
  have h2 : tok + k - tok = k := by omega
  simp only [search, h1, h2, bytes_eq _ _ (strlen_readable hstr), bytes_eq _ _ (strlen_readable hk),
    hbytes, Option.bind_eq_bind, Option.some_bind]

theorem split_segment {m : Mem} {lit : Nat} {v : filtered_string_view} (off j : Nat)
    (hv : strlen m v._ptr = some v._length) (hlit : strlen m lit = some 0)
    (hoff : off + j ≤ v._length) :
    ∃ seg,
      (∀ (β : Type) (f : filtered_string_view → Option β),
        (if v._ptr + off ≠ v._ptr + off + j then
          (of_cstr m (v._ptr + off)
            (fun a c => decide (v._ptr + off ≤ a) && decide (a < v._ptr + off + j) &&
              v.predicate a c)).bind f
        else (of_cstr m lit (fun _ _ => false)).bind f) = f seg) ∧
      seg.to_string m =
        some (passing v._predicate (((raw_cells m v._ptr v._length).drop off).take j)) := by
  obtain ⟨-, -, hblen, -, -⟩ := strlen_spec hv
  by_cases hj : j = 0
  · subst hj
    refine ⟨⟨lit, 0, fun _ _ => false⟩, ?_, ?_⟩
    · intro β f
      simp [empty_view hlit]
    · simp [to_string, to_string_loop, passing]
  · have hne : v._ptr + off ≠ v._ptr + off + j := by omega
    obtain ⟨w, hw, -, -, -, hts⟩ := window_view v._predicate (v._ptr + off + j) hv
      (Nat.le_add_right v._ptr off) (by omega : v._ptr + off ≤ v._ptr + v._length)
    refine ⟨w, ?_, ?_⟩
    · intro β f
      simp only [hne, ne_eq, not_false_eq_true, if_true, predicate]
      rw [hw]
      rfl
    · rw [hts, raw_cells_eq_cells_of hblen, cells_window _ _ _ _ (by rw [hblen]; exact hoff)]

theorem last_start_nil (tlen start : Nat) : last_start tlen start [] = start := rfl

theorem last_start_cons (tlen start o : Nat) (os : List Nat) :
    last_start tlen start (o :: os) = last_start tlen (o + tlen) os := by
  cases os with
  | nil => rfl
  | cons a l =>
    obtain ⟨x, hx⟩ : ∃ x, (a :: l).getLast? = some x :=
      ⟨_, List.getLast?_eq_getLast _ (List.cons_ne_nil a l)⟩
    simp [last_start, List.getLast?_cons_cons, hx]

theorem split_loop_spec {m : Mem} {lit : Nat} {v : filtered_string_view} {tok k : Nat}
    (hv : strlen m v._ptr = some v._length) (hk : strlen m tok = some k) (hk0 : k ≠ 0)
    (hlit : strlen m lit = some 0) :
    ∀ (fuel off : Nat), off ≤ v._length → v._length - off + 1 ≤ fuel →
      ∃ segs,
        split_loop m lit v (v._ptr + v._length) tok k fuel (v._ptr + off) =
          some (segs, v._ptr + last_start k off
            (occurrences (raw_bytes m tok k) 0 off ((raw_bytes m v._ptr v._length).drop off))) ∧
        (segs ++ (if last_start k off (occurrences (raw_bytes m tok k) 0 off
              ((raw_bytes m v._ptr v._length).drop off)) = v._length then
            [(⟨lit, 0, default_predicate⟩ : filtered_string_view)] else [])).map (to_string m) =
          (pieces k (raw_cells m v._ptr v._length) off
            (occurrences (raw_bytes m tok k) 0 off ((raw_bytes m v._ptr v._length).drop off))).map
            (fun piece => some (passing v._predicate piece)) := by
  obtain ⟨-, -, hblen, -, -⟩ := strlen_spec hv
  obtain ⟨-, -, htlen, -, -⟩ := strlen_spec hk
  have ht : raw_bytes m tok k ≠ [] := by
    intro h
    rw [h] at htlen
    exact hk0 htlen.symm
  have hclen : (raw_cells m v._ptr v._length).length = v._length := by
    rw [raw_cells_eq_cells_of hblen, cells_of_length, hblen]
  intro fuel
  induction fuel with
  | zero => intro off _ h; omega
  | succ fuel ih =>
    intro off hoff hfuel
    by_cases hlt : off < v._length
    · have hcond : v._ptr + off < v._ptr + v._length := by omega
      have hrlen : ((raw_bytes m v._ptr v._length).drop off).length = v._length - off := by
        rw [List.length_drop, hblen]
      rcases search_list_spec (raw_bytes m tok k) ht ((raw_bytes m v._ptr v._length).drop off) off
        with ⟨hj, hocc⟩ | ⟨hj, hocc⟩
      · -- no further occurrence: the segment runs to the end of the buffer
        rw [hrlen] at hj
        obtain ⟨seg, hseg, hts⟩ := split_segment off (v._length - off) hv hlit
          (by omega)
        have hpos : v._ptr + off + (v._length - off) = v._ptr + v._length := by omega
        have hne : off ≠ v._length := by omega
        refine ⟨[seg], ?_, ?_⟩
        · simp only [split_loop, hcond, if_true, split_search hv hk hoff, hj,
            Option.bind_eq_bind, Option.some_bind]
          rw [hseg]
          simp only [hpos, if_true, hocc, last_start_nil]
        · rw [hocc]
          simp only [last_start_nil, hne, if_false, List.append_nil, List.map_cons,
            List.map_nil, pieces, hts]
          rw [List.take_of_length_le (by rw [List.length_drop, hclen])]
      · -- an occurrence at offset `j` of the rest
        rw [hrlen, htlen] at hj
        rw [htlen, List.drop_drop, ← Nat.add_assoc] at hocc
        obtain ⟨seg, hseg, hts⟩ := split_segment off
          (search_list (raw_bytes m tok k) ((raw_bytes m v._ptr v._length).drop off)) hv hlit
          (by omega)
        have hne : v._ptr + off +
            search_list (raw_bytes m tok k) ((raw_bytes m v._ptr v._length).drop off) ≠
              v._ptr + v._length := by omega
        obtain ⟨segs, hloop, hmap⟩ := ih
          (off + search_list (raw_bytes m tok k) ((raw_bytes m v._ptr v._length).drop off) + k)
          (by omega) (by omega)
        have hnext : v._ptr + off +
            search_list (raw_bytes m tok k) ((raw_bytes m v._ptr v._length).drop off) + k =
            v._ptr + (off +
              search_list (raw_bytes m tok k) ((raw_bytes m v._ptr v._length).drop off) + k) := by
          omega
        refine ⟨seg :: segs, ?_, ?_⟩
        · simp only [split_loop, hcond, if_true, split_search hv hk hoff,
            Option.bind_eq_bind, Option.some_bind]
          rw [hseg]
          simp only [hne, if_false, hnext, hloop, Option.some_bind, hocc, last_start_cons]
        · rw [hocc]
          simp only [last_start_cons, List.cons_append, List.map_cons, pieces, hts,
            Nat.add_sub_cancel_left]
          rw [hmap]
    · have hoff' : off = v._length := by omega
      subst hoff'
      have hd : (raw_bytes m v._ptr v._length).drop v._length = [] :=
        List.drop_of_length_le (by rw [hblen])
      have hd' : (raw_cells m v._ptr v._length).drop v._length = [] :=
        List.drop_of_length_le (by rw [hclen])
      refine ⟨[], ?_, ?_⟩
      · rw [hd]
        simp [split_loop, occurrences, last_start_nil]
      · rw [hd]
        simp [occurrences, pieces, hd', to_string, to_string_loop, passing, last_start_nil]

theorem pieces_length {α : Type} (tlen : Nat) (s : List α) :
    ∀ (occs : List Nat) (start : Nat), (pieces tlen s start occs).length = occs.length + 1 := by
  intro occs
  induction occs with
  | nil => intro start; rfl
  | cons o os ih => intro start; simp [pieces, ih]

/-- What `split` returns for a view over a null-terminated buffer with non-zero
filtered size and a token whose C string is not empty: the segments pushed by
the loop, then the view over `""` when the last piece starts at the end of the
buffer. -/
theorem split_spec {m : Mem} {lit : Nat} {v tok : filtered_string_view} {k sz : Nat}
    (hv : strlen m v._ptr = some v._length) (hk : strlen m tok._ptr = some k) (hk0 : k ≠ 0)
    (hlit : strlen m lit = some 0) (hsz : v.size m = some sz) (hsz0 : sz ≠ 0) :
    ∃ segs,
      split m lit v tok = some (segs ++
        (if last_start k 0 (occurrences (raw_bytes m tok._ptr k) 0 0
            (raw_bytes m v._ptr v._length)) = v._length then
          [(⟨lit, 0, default_predicate⟩ : filtered_string_view)] else [])) ∧
      (segs ++ (if last_start k 0 (occurrences (raw_bytes m tok._ptr k) 0 0
            (raw_bytes m v._ptr v._length)) = v._length then
          [(⟨lit, 0, default_predicate⟩ : filtered_string_view)] else [])).map (to_string m) =
        (pieces k (raw_cells m v._ptr v._length) 0
          (occurrences (raw_bytes m tok._ptr k) 0 0 (raw_bytes m v._ptr v._length))).map
          (fun piece => some (passing v._predicate piece)) := by
  obtain ⟨segs, hloop, hmap⟩ := split_loop_spec hv hk hk0 hlit (v._length + 1) 0
    (Nat.zero_le _) (by omega)
  rw [List.drop_zero] at hloop hmap
  rw [Nat.add_zero v._ptr] at hloop
  refine ⟨segs, ?_, hmap⟩
  simp only [split, data, hv, hk, hk0, hsz, hsz0, Option.bind_eq_bind, Option.some_bind,
    if_false, hloop, Nat.add_right_inj, empty_view hlit]
  split <;> simp

theorem occurrences_self (t : List Char) (ht : t ≠ []) : occurrences t 0 0 t = [0] := by
  have hs : search_list t t = 0 := by
    cases t with
    | nil => exact absurd rfl ht
    | cons c s => simp [search_list]
  rcases search_list_spec t ht t 0 with ⟨h1, -⟩ | ⟨-, h2⟩
  · rw [hs] at h1
    exact absurd (List.length_eq_zero.mp h1.symm) ht
  · rw [h2, hs]
    simp [occurrences]

/-! ## The accessors -/

/-- C1: for a view `v` whose raw range can be read and an `int` index `i` with
`0 <= i < v.size()`, `v.at(i)` returns, without raising, the `i`-th character
(from 0, in raw order) among the raw characters that satisfy the predicate,
which is character `i` of the string conversion of `v`. -/
theorem at_returns_ith_passing (m : Mem) (v : filtered_string_view) (i : Int) (sz : Nat)
    (hm : readable m v._ptr v._length) (hsz : v.size m = some sz)
    (h0 : 0 ≤ i) (hi : i < sz) (hint : i ≤ INT_MAX) :
    ∃ c, v.at_ m i = some (.ok c) ∧
      (passing v._predicate (raw_cells m v._ptr v._length))[i.toNat]? = some c ∧
      ∃ s, v.to_string m = some s ∧ s[i.toNat]? = some c := by
  obtain ⟨c, hc, -, hat⟩ := at_in_range hm hsz h0 hi hint
  exact ⟨c, hat, hc, _, to_string_eq hm, hc⟩

theorem at_returns_ith_passing_witness :
    readable mem_malamute sv_malamute._ptr sv_malamute._length ∧
    sv_malamute.size mem_malamute = some 4 ∧
    ∃ c, sv_malamute.at_ mem_malamute 2 = some (.ok c) ∧
      (passing sv_malamute._predicate
        (raw_cells mem_malamute sv_malamute._ptr sv_malamute._length))[(2 : Int).toNat]? =
          some c ∧
      ∃ s, sv_malamute.to_string mem_malamute = some s ∧ s[(2 : Int).toNat]? = some c :=
  ⟨by decide, by decide,
    at_returns_ith_passing mem_malamute sv_malamute 2 4 (by decide) (by decide) (by decide)
      (by decide) (by decide)⟩

/-- The test of `at`: the vowels of `"Malamute"` are `a`, `a`, `u`, `e`. -/
theorem at_test_malamute :
    [0, 1, 2, 3].map (sv_malamute.at_ mem_malamute) =
      [some (.ok 'a'), some (.ok 'a'), some (.ok 'u'), some (.ok 'e')] := by
  decide

/-- C2: for a view `v` whose raw range can be read (an empty view included) and
an `int` index `i`, `v.at(i)` raises exactly when `i < 0` or `i >= v.size()`,
and the message of the error raised is `filtered_string_view::at(<i>): invalid
index` with `<i>` the decimal rendering of `i`. -/
theorem at_raises_iff_out_of_range (m : Mem) (v : filtered_string_view) (i : Int) (sz : Nat)
    (hm : readable m v._ptr v._length) (hsz : v.size m = some sz) (hint : i ≤ INT_MAX) :
    ((∃ e, v.at_ m i = some (.error e)) ↔ (i < 0 ∨ (sz : Int) ≤ i)) ∧
    (∀ e, v.at_ m i = some (.error e) →
      e = "filtered_string_view::at(" ++ toString i ++ "): invalid index") := by
  by_cases hneg : i < 0
  · have hat : v.at_ m i = some (.error (at_message i)) := by simp [at_, hneg]
    refine ⟨⟨fun _ => Or.inl hneg, fun _ => ⟨_, hat⟩⟩, ?_⟩
    intro e he
    rw [hat] at he
    injection he with he
    injection he with he
    exact he ▸ rfl
  · by_cases hbig : (sz : Int) ≤ i
    · have hge : i.toNat ≥ sz := by omega
      have hat : v.at_ m i = some (.error (at_message i)) := by simp [at_, hneg, hsz, hge]
      refine ⟨⟨fun _ => Or.inr hbig, fun _ => ⟨_, hat⟩⟩, ?_⟩
      intro e he
      rw [hat] at he
      injection he with he
      injection he with he
      exact he ▸ rfl
    · obtain ⟨c, -, -, hat⟩ := at_in_range hm hsz (not_lt.mp hneg) (not_le.mp hbig) hint
      refine ⟨⟨?_, ?_⟩, ?_⟩
      · rintro ⟨e, he⟩
        rw [hat] at he
        injection he with he
        cases he
      · rintro (h | h)
        · exact absurd h hneg
        · exact absurd h hbig
      · intro e he
        rw [hat] at he
        injection he with he
        cases he

theorem at_raises_iff_out_of_range_witness :
    readable mem_malamute sv_malamute._ptr sv_malamute._length ∧
    sv_malamute.size mem_malamute = some 4 ∧
    (((∃ e, sv_malamute.at_ mem_malamute 4 = some (.error e)) ↔
        ((4 : Int) < 0 ∨ ((4 : Nat) : Int) ≤ 4)) ∧
      (∀ e, sv_malamute.at_ mem_malamute 4 = some (.error e) →
        e = "filtered_string_view::at(" ++ toString (4 : Int) ++ "): invalid index")) :=
  ⟨by decide, by decide,
    at_raises_iff_out_of_range mem_malamute sv_malamute 4 4 (by decide) (by decide)
      (by decide)⟩

/-- The errors of the test of `at`: index 4 and index -1 on a view of size 4,
and index 0 on the empty view over `""`. -/
theorem at_test_errors :
    sv_malamute.at_ mem_malamute 4 =
      some (.error "filtered_string_view::at(4): invalid index") ∧
    sv_malamute.at_ mem_malamute (-1) =
      some (.error "filtered_string_view::at(-1): invalid index") ∧
    filtered_string_view.at_ mem_malamute ⟨10, 0, default_predicate⟩ 0 =
      some (.error "filtered_string_view::at(0): invalid index") := by
  decide

/-- The subscript operator where its counter cannot wrap: for a view `v` whose
raw range can be read and an `int` `n`, `v[n]` returns a character (it has no
raising path): for `0 <= n < v.size()` the `n`-th character satisfying the
predicate, which is the character `v.at(n)` returns, and for `n < 0` or
`n >= v.size()` the sentinel `NUL`.  The `int` counter of the loop can only
reach a negative `n` by wrapping around, so for `n < 0` the view is taken to
hold at most `INT_MAX` raw characters. -/
theorem subscript_never_raises (m : Mem) (v : filtered_string_view) (n : Int) (sz : Nat)
    (hm : readable m v._ptr v._length) (hsz : v.size m = some sz) (hint : n ≤ INT_MAX)
    (hlen : n < 0 → (v._length : Int) ≤ INT_MAX) :
    (0 ≤ n ∧ n < sz →
      ∃ c, v.subscript m n = some c ∧ v.at_ m n = some (.ok c) ∧
        (passing v._predicate (raw_cells m v._ptr v._length))[n.toNat]? = some c) ∧
    (n < 0 ∨ (sz : Int) ≤ n → v.subscript m n = some NUL) := by
  constructor
  · rintro ⟨h0, hlt⟩
    obtain ⟨c, hc, hloop, hat⟩ := at_in_range hm hsz h0 hlt hint
    exact ⟨c, by simp [subscript, hloop], hat, hc⟩
  · rintro (hneg | hbig)
    · have hmax := hlen hneg
      have hloop := nth_loop_none v._predicate n v._length v._ptr 0 hm le_rfl hneg
        (by omega)
      simp [subscript, hloop]
    · have h0 : (0 : Int) ≤ n := by omega
      have hloop := nth_loop_found v._predicate n hint v._length v._ptr 0 hm le_rfl h0
      have hs := size_eq hm
      rw [hsz] at hs
      injection hs with hs
      have hnone : (passing v._predicate (raw_cells m v._ptr v._length))[(n - 0).toNat]? =
          none := by
        apply List.getElem?_eq_none
        omega
      rw [hnone] at hloop
      simp [subscript, hloop]

theorem subscript_never_raises_witness :
    readable mem_kids sv_kids._ptr sv_kids._length ∧
    sv_kids.size mem_kids = some 5 ∧ (-1 : Int) ≤ INT_MAX ∧
    ((-1 : Int) < 0 → (sv_kids._length : Int) ≤ INT_MAX) ∧
    ((0 ≤ (-1 : Int) ∧ (-1 : Int) < (5 : Nat) →
      ∃ c, sv_kids.subscript mem_kids (-1) = some c ∧
        sv_kids.at_ mem_kids (-1) = some (.ok c) ∧
        (passing sv_kids._predicate
          (raw_cells mem_kids sv_kids._ptr sv_kids._length))[(-1 : Int).toNat]? = some c) ∧
    ((-1 : Int) < 0 ∨ ((5 : Nat) : Int) ≤ -1 → sv_kids.subscript mem_kids (-1) = some NUL)) :=
  ⟨by decide, by decide, by decide, by decide,
    subscript_never_raises mem_kids sv_kids (-1) 5 (by decide) (by decide) (by decide)
      (by decide)⟩

/-- The test of the subscript operator on `"only 90s kids understand"`. -/
theorem subscript_test_kids :
    [0, 1, 2, 3, 4, 5, -1].map (sv_kids.subscript mem_kids) =
      [some ' ', some '9', some '0', some ' ', some ' ', some NUL, some NUL] := by
  decide

/-- C4: for a view `v` whose raw range can be read, `v.size()` is the number of
characters of the raw range that satisfy the predicate, the string conversion
of `v` is those characters in raw order, so `v.size()` is its length, and
`v.empty()` is true exactly when `v.size() == 0`. -/
theorem size_counts_passing (m : Mem) (v : filtered_string_view)
    (hm : readable m v._ptr v._length) :
    ∃ n s, v.size m = some n ∧ v.to_string m = some s ∧
      n = (raw_cells m v._ptr v._length).countP (fun ac => v._predicate ac.1 ac.2) ∧
      s = ((raw_cells m v._ptr v._length).filter
        (fun ac => v._predicate ac.1 ac.2)).map Prod.snd ∧
      n = s.length ∧
      ∃ b, v.empty m = some b ∧ (b = true ↔ n = 0) := by
  refine ⟨_, _, size_eq hm, to_string_eq hm, ?_, rfl, rfl, ?_⟩
  · simp [passing, List.countP_eq_length_filter]
  · refine ⟨_, by simp only [empty, size_eq hm, Option.bind_eq_bind, Option.some_bind]; rfl,
      by simp⟩

theorem size_counts_passing_witness :
    readable mem_malamute sv_malamute._ptr sv_malamute._length ∧
    ∃ n s, sv_malamute.size mem_malamute = some n ∧
      sv_malamute.to_string mem_malamute = some s ∧
      n = (raw_cells mem_malamute sv_malamute._ptr sv_malamute._length).countP
        (fun ac => sv_malamute._predicate ac.1 ac.2) ∧
      s = ((raw_cells mem_malamute sv_malamute._ptr sv_malamute._length).filter
        (fun ac => sv_malamute._predicate ac.1 ac.2)).map Prod.snd ∧
      n = s.length ∧
      ∃ b, sv_malamute.empty mem_malamute = some b ∧ (b = true ↔ n = 0) :=
  ⟨by decide, size_counts_passing mem_malamute sv_malamute (by decide)⟩

/-- The tests of `size` and `empty`: sizes 7 and 3, and the default view and a
view that passes no character are empty. -/
theorem size_test_values :
    filtered_string_view.size ('z' :: ("Maltese".toList ++ [NUL])) ⟨1, 7, default_predicate⟩ =
      some 7 ∧
    filtered_string_view.size ('z' :: ("Toy Poodle".toList ++ [NUL]))
      ⟨1, 10, fun _ c => c == 'o'⟩ = some 3 ∧
    filtered_string_view.empty [] mk_default = some true ∧
    filtered_string_view.empty ('z' :: ("Border Collie".toList ++ [NUL]))
      ⟨1, 13, fun _ c => c == 'z'⟩ = some true ∧
    filtered_string_view.empty mem_malamute sv_malamute = some false := by
  decide

/-! ## `substr` -/

/-- The function `substr` on buffers that an `int` can count: for a view `v`
over a null-terminated buffer of at most `INT_MAX` characters,
`0 <= pos < v.size()` and an `int` `count`, the string conversion of
`substr(v, pos, count)` is the string conversion of `v` without its first `pos`
characters, cut to its first `count` characters when `count > 0` (its length is
then `min(count, v.size() - pos)`) and left whole when `count <= 0`. -/
theorem substr_drops_and_takes (m : Mem) (lit : Nat) (v : filtered_string_view)
    (pos count : Int) (sz : Nat)
    (hv : nul_terminated m v) (hlen : (v._length : Int) ≤ INT_MAX)
    (hsz : v.size m = some sz) (hpos0 : 0 ≤ pos) (hpos : pos < sz)
    (hcount : INT_MIN ≤ count ∧ count ≤ INT_MAX) :
    ∃ w s r, substr m lit v pos count = some w ∧ v.to_string m = some s ∧
      w.to_string m = some r ∧
      r = (if 0 < count then (s.drop pos.toNat).take count.toNat else s.drop pos.toNat) ∧
      (0 < count → r.length = min count.toNat (sz - pos.toNat)) ∧
      (count ≤ 0 → r.length = sz - pos.toNat) := by
  unfold nul_terminated at hv
  obtain ⟨hp, hlt, hblen, hnul, rest, hdrop⟩ := strlen_spec hv
  have hread := strlen_readable hv
  have hsize := size_eq hread
  rw [hsz] at hsize
  injection hsize with hsize
  have hts := to_string_eq hread
  rw [raw_cells_eq_cells_of hblen] at hsize hts
  have hle : sz ≤ v._length := by
    rw [hsize]
    calc _ ≤ (cells_of v._ptr (raw_bytes m v._ptr v._length)).length := passing_length_le _ _
      _ = v._length := by rw [cells_of_length, hblen]
  have hnot : ¬ (pos < 0 ∨ pos.toNat ≥ sz) := by omega
  have hcnt : count_if m v._predicate v._ptr v._length = some sz := hsz
  have hex : (pos - 0).toNat <
      (passing v._predicate (cells_of v._ptr (raw_bytes m v._ptr v._length))).length := by
    rw [← hsize]; omega
  have hmax : (0 : Int) + (raw_bytes m v._ptr v._length).length ≤ INT_MAX := by
    rw [hblen]; simpa using hlen
  obtain ⟨T, hTeq, hT1, hT2⟩ := substr_target
    (if count ≤ 0 then sz - pos.toNat else count.toNat) hle hlen hpos0 hpos hcount rfl
  revert hTeq
  obtain ⟨ss, e, hloop, hps, hse, hee, hpass⟩ := substr_loop_before v._predicate pos T rest hT1
    (raw_bytes m v._ptr v._length) v._ptr 0 nullptr hnul hp le_rfl hpos0 hmax hex
  rw [hT2 _ hsize.symm, hblen] at hpass
  rw [hblen] at hse hee
  obtain ⟨w, hw, -, -, -, hwts⟩ := window_view v._predicate (end_or e (v._ptr + v._length)) hv
    hps (by omega)
  rw [raw_cells_eq_cells_of hblen, hpass] at hwts
  have hss : ss ≠ nullptr := by unfold nullptr at hp ⊢; omega
  intro hTeq
  refine ⟨w, _, _, ?_, hts, hwts, rfl, ?_, ?_⟩
  · simp only [substr, data, predicate, hv, hcnt, Option.bind_eq_bind, Option.some_bind,
      hnot, if_false, hdrop, hTeq, hloop, hss, Option.map_some']
    unfold end_or at hw
    split <;> rename_i he
    · rw [if_pos he] at hw
      exact hw
    · rw [if_neg he] at hw
      exact hw
  · intro hc
    simp only [hc, if_true, List.length_take, List.length_drop, ← hsize]
  · intro hc
    have : ¬ 0 < count := not_lt.mpr hc
    simp only [this, if_false, List.length_drop, ← hsize]

theorem substr_drops_and_takes_witness :
    nul_terminated mem_dogs sv_sled ∧ (sv_sled._length : Int) ≤ INT_MAX ∧
    sv_sled.size mem_dogs = some 2 ∧ (0 : Int) ≤ 1 ∧ (1 : Int) < (2 : Nat) ∧
    (INT_MIN ≤ 5 ∧ (5 : Int) ≤ INT_MAX) ∧
    ∃ w s r, substr mem_dogs 16 sv_sled 1 5 = some w ∧ sv_sled.to_string mem_dogs = some s ∧
      w.to_string mem_dogs = some r ∧
      r = (if (0 : Int) < 5 then (s.drop (1 : Int).toNat).take (5 : Int).toNat
        else s.drop (1 : Int).toNat) ∧
      ((0 : Int) < 5 → r.length = min (5 : Int).toNat (2 - (1 : Int).toNat)) ∧
      ((5 : Int) ≤ 0 → r.length = 2 - (1 : Int).toNat) :=
  ⟨by decide, by decide, by decide, by decide, by decide, by decide,
    substr_drops_and_takes mem_dogs 16 sv_sled 1 5 2 (by decide) (by decide) (by decide)
      (by decide) (by decide) (by decide)⟩

/-- The tests of `substr`, and two calls whose `count` overruns the view: the
second one makes `pos + count` wrap around. -/
theorem substr_test_values :
    (substr mem_dogs 16 sv_husky 9 0).bind (·.to_string mem_dogs) = some "Husky".toList ∧
    (substr mem_dogs 16 sv_sled 0 2).bind (·.to_string mem_dogs) = some "SD".toList ∧
    (substr mem_dogs 16 sv_husky 0 0).bind (·.to_string mem_dogs) =
      some "Siberian Husky".toList ∧
    (substr mem_dogs 16 sv_husky 9 100).bind (·.to_string mem_dogs) = some "Husky".toList ∧
    (substr mem_dogs 16 sv_husky 9 2147483647).bind (·.to_string mem_dogs) =
      some "Husky".toList := by
  decide

/-- C6: for a view `v` over a null-terminated buffer and every `count`, if
`pos < 0` or `pos >= v.size()` then `substr(v, pos, count)` returns, without
raising, a view of size 0 whose predicate rejects every character. -/
theorem substr_out_of_range_is_empty (m : Mem) (lit : Nat) (v : filtered_string_view)
    (pos count : Int) (sz : Nat)
    (hv : nul_terminated m v) (hlit : strlen m lit = some 0)
    (hsz : v.size m = some sz) (hpos : pos < 0 ∨ (sz : Int) ≤ pos) :
    ∃ w, substr m lit v pos count = some w ∧ w.size m = some 0 ∧
      w.to_string m = some [] ∧ ∀ a c, w.predicate a c = false := by
  unfold nul_terminated at hv
  have hcnt : count_if m v._predicate v._ptr v._length = some sz := hsz
  have hcond : pos < 0 ∨ pos.toNat ≥ sz := by omega
  refine ⟨⟨lit, 0, fun _ _ => false⟩, ?_, rfl, rfl, fun _ _ => rfl⟩
  simp only [substr, data, predicate, hv, hcnt, Option.bind_eq_bind, Option.some_bind, hcond,
    if_true]
  exact empty_view hlit _

theorem substr_out_of_range_is_empty_witness :
    nul_terminated mem_dogs sv_sled ∧ strlen mem_dogs 16 = some 0 ∧
    sv_sled.size mem_dogs = some 2 ∧ ((2 : Int) < 0 ∨ ((2 : Nat) : Int) ≤ 2) ∧
    ∃ w, substr mem_dogs 16 sv_sled 2 1 = some w ∧ w.size mem_dogs = some 0 ∧
      w.to_string mem_dogs = some [] ∧ ∀ a c, w.predicate a c = false :=
  ⟨by decide, by decide, by decide, by decide,
    substr_out_of_range_is_empty mem_dogs 16 sv_sled 2 1 2 (by decide) (by decide) (by decide)
      (by decide)⟩

/-! ## `split` -/

/-- C7: for a view `v` over a null-terminated buffer with non-zero filtered size
and a token whose null-terminated raw content `t` (of length `k`) is not empty,
`split(v, token)` returns one segment for each piece into which the successive
leftmost non-overlapping occurrences of `t` cut the raw buffer of `v`, in
order: as many segments as occurrences plus one, the string conversion of each
being the characters of its piece that satisfy the predicate of `v`. -/
theorem split_segments_are_pieces (m : Mem) (lit : Nat) (v tok : filtered_string_view)
    (k sz : Nat)
    (hv : nul_terminated m v) (hk : strlen m tok._ptr = some k) (hk0 : k ≠ 0)
    (hlit : strlen m lit = some 0) (hsz : v.size m = some sz) (hsz0 : sz ≠ 0) :
    ∃ segs, split m lit v tok = some segs ∧
      segs.length =
        (occurrences (raw_bytes m tok._ptr k) 0 0 (raw_bytes m v._ptr v._length)).length + 1 ∧
      segs.map (to_string m) =
        (pieces k (raw_cells m v._ptr v._length) 0
          (occurrences (raw_bytes m tok._ptr k) 0 0 (raw_bytes m v._ptr v._length))).map
          (fun piece => some (passing v._predicate piece)) := by
  obtain ⟨segs, hsplit, hmap⟩ := split_spec hv hk hk0 hlit hsz hsz0
  refine ⟨_, hsplit, ?_, hmap⟩
  have hlen := congrArg List.length hmap
  rw [List.length_map, List.length_map, pieces_length] at hlen
  exact hlen

theorem split_segments_are_pieces_witness :
    nul_terminated mem_hex sv_hex ∧ strlen mem_hex tok_slash._ptr = some 3 ∧ (3 : Nat) ≠ 0 ∧
    strlen mem_hex 29 = some 0 ∧ sv_hex.size mem_hex = some 19 ∧ (19 : Nat) ≠ 0 ∧
    ∃ segs, split mem_hex 29 sv_hex tok_slash = some segs ∧
      segs.length =
        (occurrences (raw_bytes mem_hex tok_slash._ptr 3) 0 0
          (raw_bytes mem_hex sv_hex._ptr sv_hex._length)).length + 1 ∧
      segs.map (to_string mem_hex) =
        (pieces 3 (raw_cells mem_hex sv_hex._ptr sv_hex._length) 0
          (occurrences (raw_bytes mem_hex tok_slash._ptr 3) 0 0
            (raw_bytes mem_hex sv_hex._ptr sv_hex._length))).map
          (fun piece => some (passing sv_hex._predicate piece)) :=
  ⟨by decide, by decide, by decide, by decide, by decide, by decide,
    split_segments_are_pieces mem_hex 29 sv_hex tok_slash 3 19 (by decide) (by decide)
      (by decide) (by decide) (by decide) (by decide)⟩

/-- The tests of `split`: `"0xDEADBEEF / 0xdeadbeef"` on `" / "` under the
hexadecimal filter, `"xax"` on `"x"` and `"xx"` on `"x"`. -/
theorem split_test_values :
    (split mem_hex 29 sv_hex tok_slash).map (List.map (to_string mem_hex)) =
      some [some "DEADBEEF".toList, some "deadbeef".toList] ∧
    (split mem_x 7 sv_xax tok_x).map (List.map (to_string mem_x)) =
      some [some [], some ['a'], some []] ∧
    (split mem_x 7 sv_xx tok_x).map (List.map (to_string mem_x)) =
      some [some [], some [], some []] := by
  decide

/-- The occurrences and the pieces of the tests, from the specification side. -/
theorem pieces_test_values :
    occurrences "x".toList 0 0 "xax".toList = [0, 2] ∧
    pieces 1 "xax".toList 0 [0, 2] = [[], ['a'], []] ∧
    occurrences " / ".toList 0 0 "0xDEADBEEF / 0xdeadbeef".toList = [10] ∧
    pieces 3 "0xDEADBEEF / 0xdeadbeef".toList 0 [10] =
      ["0xDEADBEEF".toList, "0xdeadbeef".toList] ∧
    occurrences "aa".toList 0 0 "aaaaa".toList = [0, 2] ∧
    pieces 2 "aaaaa".toList 0 [0, 2] = [[], [], ['a']] := by
  decide


/-- C8, the code at a failing input: the default-constructed view has filtered
size zero and a null `data()`; `split` passes `data()` to `std::strlen` before
it looks at the size, which is undefined, so no one-element sequence is
returned.  The same holds for a default-constructed token, whose raw content is
empty. -/
theorem split_of_default_view_undefined :
    mk_default.size mem_x = some 0 ∧ split mem_x 7 mk_default tok_x = none ∧
    strlen mem_x mk_default._ptr = none ∧
    mk_default._length = 0 ∧ split mem_x 7 sv_xax mk_default = none :=
  ⟨by decide, rfl, by decide, rfl, rfl⟩

/-- The guard of `split` once both calls of `std::strlen` have returned: when
`data()` of `v` and of `tok` both address a null-terminated sequence, and the
null-terminated raw content of `tok` (of length `k`) is empty or the filtered
size of `v` is zero, `split(v, tok)` returns the one-element sequence holding
`v` itself. -/
theorem split_of_empty_returns_view (m : Mem) (lit : Nat) (v tok : filtered_string_view)
    (n k : Nat)
    (hv : strlen m v._ptr = some n) (hk : strlen m tok._ptr = some k)
    (h : k = 0 ∨ v.size m = some 0) :
    split m lit v tok = some [v] := by
  by_cases hk0 : k = 0
  · simp [split, data, hv, hk, hk0]
  · rcases h with h | h
    · exact absurd h hk0
    · simp [split, data, hv, hk, hk0, h]

theorem split_of_empty_returns_view_witness :
    strlen mem_x sv_xax._ptr = some 3 ∧ strlen mem_x 7 = some 0 ∧
    ((0 : Nat) = 0 ∨ sv_xax.size mem_x = some 0) ∧
    split mem_x 7 sv_xax ⟨7, 0, default_predicate⟩ = some [sv_xax] :=
  ⟨by decide, by decide, by decide,
    split_of_empty_returns_view mem_x 7 sv_xax ⟨7, 0, default_predicate⟩ 3 0 (by decide)
      (by decide) (by decide)⟩

/-- C9: for a view `v` over a null-terminated buffer with non-zero filtered size
and a token whose null-terminated raw content `t` (of length `k`) is not empty,
if the last occurrence of `t` found by the scan ends at the end of the raw
buffer, `split(v, token)` ends with one more segment after those of the loop:
the view over `""`, whose string conversion is empty. -/
theorem split_appends_trailing_segment (m : Mem) (lit : Nat) (v tok : filtered_string_view)
    (k sz o : Nat)
    (hv : nul_terminated m v) (hk : strlen m tok._ptr = some k) (hk0 : k ≠ 0)
    (hlit : strlen m lit = some 0) (hsz : v.size m = some sz) (hsz0 : sz ≠ 0)
    (hlast : (occurrences (raw_bytes m tok._ptr k) 0 0
      (raw_bytes m v._ptr v._length)).getLast? = some o)
    (hend : o + k = v._length) :
    ∃ segs last, split m lit v tok = some (segs ++ [last]) ∧
      segs.length =
        (occurrences (raw_bytes m tok._ptr k) 0 0 (raw_bytes m v._ptr v._length)).length ∧
      last = ⟨lit, 0, default_predicate⟩ ∧ last.to_string m = some [] := by
  obtain ⟨segs, hsplit, hmap⟩ := split_spec hv hk hk0 hlit hsz hsz0
  have hls : last_start k 0 (occurrences (raw_bytes m tok._ptr k) 0 0
      (raw_bytes m v._ptr v._length)) = v._length := by
    simp only [last_start, hlast, hend]
  rw [if_pos hls] at hsplit hmap
  refine ⟨segs, _, hsplit, ?_, rfl, rfl⟩
  have hlen := congrArg List.length hmap
  rw [List.length_map, List.length_map, pieces_length, List.length_append] at hlen
  simpa using hlen

theorem split_appends_trailing_segment_witness :
    nul_terminated mem_x sv_xx ∧ strlen mem_x tok_x._ptr = some 1 ∧ (1 : Nat) ≠ 0 ∧
    strlen mem_x 7 = some 0 ∧ sv_xx.size mem_x = some 2 ∧ (2 : Nat) ≠ 0 ∧
    (occurrences (raw_bytes mem_x tok_x._ptr 1) 0 0
      (raw_bytes mem_x sv_xx._ptr sv_xx._length)).getLast? = some 1 ∧
    1 + 1 = sv_xx._length ∧
    ∃ segs last, split mem_x 7 sv_xx tok_x = some (segs ++ [last]) ∧
      segs.length =
        (occurrences (raw_bytes mem_x tok_x._ptr 1) 0 0
          (raw_bytes mem_x sv_xx._ptr sv_xx._length)).length ∧
      last = ⟨7, 0, default_predicate⟩ ∧ last.to_string mem_x = some [] :=
  ⟨by decide, by decide, by decide, by decide, by decide, by decide, by decide, by decide,
    split_appends_trailing_segment mem_x 7 sv_xx tok_x 1 2 1 (by decide) (by decide)
      (by decide) (by decide) (by decide) (by decide) (by decide) (by decide)⟩

/-- C10: for a view `v` over a non-empty null-terminated buffer with non-zero
filtered size, splitting `v` on a token whose null-terminated raw content is
the whole raw content of `v` gives exactly two segments, both with an empty
string conversion. -/
theorem split_on_whole_content (m : Mem) (lit : Nat) (v tok : filtered_string_view)
    (k sz : Nat)
    (hv : nul_terminated m v) (hne : v._length ≠ 0) (hk : strlen m tok._ptr = some k)
    (htok : raw_bytes m tok._ptr k = raw_bytes m v._ptr v._length)
    (hlit : strlen m lit = some 0) (hsz : v.size m = some sz) (hsz0 : sz ≠ 0) :
    ∃ a b, split m lit v tok = some [a, b] ∧
      a.to_string m = some [] ∧ b.to_string m = some [] := by
  obtain ⟨-, -, hblen, -, -⟩ := strlen_spec hv
  obtain ⟨-, -, htlen, -, -⟩ := strlen_spec hk
  have hkn : k = v._length := by rw [← htlen, htok, hblen]
  have hk0 : k ≠ 0 := by rw [hkn]; exact hne
  have ht : raw_bytes m v._ptr v._length ≠ [] := by
    intro h
    rw [h] at hblen
    exact hne hblen.symm
  obtain ⟨segs', hsplit, hmap⟩ := split_spec hv hk hk0 hlit hsz hsz0
  generalize segs' ++ (if last_start k 0 (occurrences (raw_bytes m tok._ptr k) 0 0
      (raw_bytes m v._ptr v._length)) = v._length then
    [(⟨lit, 0, default_predicate⟩ : filtered_string_view)] else []) = segs at hsplit hmap
  have hclen : (raw_cells m v._ptr v._length).length = v._length := by
    rw [raw_cells_eq_cells_of hblen, cells_of_length, hblen]
  rw [htok, occurrences_self _ ht] at hmap
  simp only [pieces, List.drop_zero, List.take_zero, Nat.zero_add, List.map_cons,
    List.map_nil, passing_nil, hkn, List.drop_of_length_le (le_of_eq hclen)] at hmap
  have hlen : segs.length = 2 := by
    have := congrArg List.length hmap
    simpa using this
  obtain ⟨a, b, rfl⟩ := List.length_eq_two.mp hlen
  simp only [List.map_cons, List.map_nil, List.cons.injEq, and_true] at hmap
  exact ⟨a, b, hsplit, hmap.1, hmap.2⟩

theorem split_on_whole_content_witness :
    nul_terminated mem_x sv_xax ∧ sv_xax._length ≠ 0 ∧ strlen mem_x sv_xax._ptr = some 3 ∧
    raw_bytes mem_x sv_xax._ptr 3 = raw_bytes mem_x sv_xax._ptr sv_xax._length ∧
    strlen mem_x 7 = some 0 ∧ sv_xax.size mem_x = some 3 ∧ (3 : Nat) ≠ 0 ∧
    ∃ a b, split mem_x 7 sv_xax sv_xax = some [a, b] ∧
      a.to_string mem_x = some [] ∧ b.to_string mem_x = some [] :=
  ⟨by decide, by decide, by decide, by decide, by decide, by decide, by decide,
    split_on_whole_content mem_x 7 sv_xax sv_xax 3 3 (by decide) (by decide) (by decide)
      (by decide) (by decide) (by decide) (by decide)⟩

/-! ## `compose` -/

theorem composed_predicate_eq (filts : List Filter) (a : Nat) (c : Char) :
    composed_predicate filts a c = filts.all (fun f => f a c) := by
  induction filts with
  | nil => rfl
  | cons f fs ih =>
    by_cases hf : f a c = true
    · simp [composed_predicate, hf, ih]
    · simp [composed_predicate, hf]

theorem to_string_mk {m : Mem} {p n : Nat} (pred : Filter) (h : readable m p n) :
    filtered_string_view.to_string m ⟨p, n, pred⟩ = some (passing pred (raw_cells m p n)) :=
  to_string_loop_eq pred n p h

theorem passing_congr {p q : Filter} (h : ∀ a c, p a c = q a c) (l : List (Nat × Char)) :
    passing p l = passing q l := by
  have : (fun ac : Nat × Char => p ac.1 ac.2) = (fun ac => q ac.1 ac.2) := by
    funext ac
    exact h ac.1 ac.2
  simp only [passing, this]

theorem passing_default {m : Mem} {p n : Nat} (h : (raw_bytes m p n).length = n) :
    passing default_predicate (raw_cells m p n) = raw_bytes m p n := by
  simp only [passing, default_predicate, List.filter_true, raw_cells]
  apply List.map_snd_zip
  simp [h]

/-- C11: for a view `v` over a null-terminated buffer and a list `fs` of
predicates, `compose(v, fs)` is a view over the raw buffer of `v` (same start,
same raw length) whose string conversion is the raw characters of the buffer,
in order, that every predicate of `fs` accepts; the predicate of `v` plays no
part: a view over the same buffer with any other predicate gives the same
result. -/
theorem compose_passes_all (m : Mem) (v : filtered_string_view) (fs : List Filter)
    (hv : nul_terminated m v) :
    ∃ w, compose m v fs = some w ∧ w._ptr = v._ptr ∧ w._length = v._length ∧
      w.to_string m =
        some (passing (fun a c => fs.all (fun f => f a c)) (raw_cells m v._ptr v._length)) ∧
      ∀ q : Filter, compose m ⟨v._ptr, v._length, q⟩ fs = some w := by
  unfold nul_terminated at hv
  refine ⟨⟨v._ptr, v._length, composed_predicate fs⟩, ?_, rfl, rfl, ?_, ?_⟩
  · simp [compose, of_cstr, data, hv]
  · rw [to_string_mk _ (strlen_readable hv)]
    congr 1
    exact passing_congr (composed_predicate_eq fs) _
  · intro q
    simp [compose, of_cstr, data, hv]

theorem compose_passes_all_witness :
    nul_terminated mem_c sv_c ∧
    ∃ w, compose mem_c sv_c filts_c = some w ∧ w._ptr = sv_c._ptr ∧
      w._length = sv_c._length ∧
      w.to_string mem_c =
        some (passing (fun a c => filts_c.all (fun f => f a c))
          (raw_cells mem_c sv_c._ptr sv_c._length)) ∧
      ∀ q : Filter, compose mem_c ⟨sv_c._ptr, sv_c._length, q⟩ filts_c = some w :=
  ⟨by decide, compose_passes_all mem_c sv_c filts_c (by decide)⟩

/-- The test of `compose`: `"c / c++"` under the three filters is `"c/c++"`,
also when the view composed has a predicate that rejects every character. -/
theorem compose_test_value :
    (compose mem_c sv_c filts_c).bind (·.to_string mem_c) = some "c/c++".toList ∧
    (compose mem_c ⟨1, 7, fun _ _ => false⟩ filts_c).bind (·.to_string mem_c) =
      some "c/c++".toList := by
  decide

/-- C12, counterexample: a view over a `std::string` of size 3 with an embedded
`NUL`.  `compose` with no predicate keeps the one character before the `NUL`;
the view over the same start and raw length with the always-true predicate has
the three characters. -/
theorem compose_empty_stops_at_nul :
    (compose mem_nul sv_nul []).bind (·.to_string mem_nul) = some ['a'] ∧
    (compose mem_nul sv_nul []).map (·._length) = some 1 ∧
    filtered_string_view.to_string mem_nul ⟨sv_nul._ptr, sv_nul._length, default_predicate⟩ =
      some ['a', NUL, 'b'] := by
  decide

/-- C12, amended: for a view `v` whose raw length is the length of the
null-terminated sequence at `data()`, `compose(v, {})` has the string
conversion of the view over the same start and raw length with the
always-true predicate: every raw character of `v`. -/
theorem compose_empty_passes_all (m : Mem) (v : filtered_string_view)
    (hv : nul_terminated m v) :
    ∃ w, compose m v [] = some w ∧
      w.to_string m =
        filtered_string_view.to_string m ⟨v._ptr, v._length, default_predicate⟩ ∧
      w.to_string m = some (raw_bytes m v._ptr v._length) := by
  unfold nul_terminated at hv
  obtain ⟨-, -, hblen, -, -⟩ := strlen_spec hv
  have hr := strlen_readable hv
  have h1 : filtered_string_view.to_string m ⟨v._ptr, v._length, composed_predicate []⟩ =
      some (raw_bytes m v._ptr v._length) := by
    rw [to_string_mk _ hr]
    congr 1
    exact (passing_congr (fun _ _ => rfl) _).trans (passing_default hblen)
  have h2 : filtered_string_view.to_string m ⟨v._ptr, v._length, default_predicate⟩ =
      some (raw_bytes m v._ptr v._length) := by
    rw [to_string_mk _ hr]
    congr 1
    exact passing_default hblen
  refine ⟨⟨v._ptr, v._length, composed_predicate []⟩, ?_, h1.trans h2.symm, h1⟩
  simp [compose, of_cstr, data, hv]

theorem compose_empty_passes_all_witness :
    nul_terminated mem_c ⟨1, 7, is_vowel⟩ ∧
    ∃ w, compose mem_c ⟨1, 7, is_vowel⟩ [] = some w ∧
      w.to_string mem_c =
        filtered_string_view.to_string mem_c ⟨1, 7, default_predicate⟩ ∧
      w.to_string mem_c = some (raw_bytes mem_c 1 7) :=
  ⟨by decide, compose_empty_passes_all mem_c ⟨1, 7, is_vowel⟩ (by decide)⟩


/-! ## Comparisons -/

theorem string_compare_eq_iff : ∀ (a b : List Char), string_compare a b = .eq ↔ a = b := by
  intro a
  induction a with
  | nil =>
    intro b
    cases b <;> simp [string_compare]
  | cons x xs ih =>
    intro b
    cases b with
    | nil => simp [string_compare]
    | cons y ys =>
      simp only [string_compare, List.cons.injEq]
      by_cases h1 : x < y
      · simp only [h1, if_true]
        constructor
        · intro h; cases h
        · rintro ⟨rfl, -⟩; exact absurd h1 (lt_irrefl x)
      · by_cases h2 : y < x
        · simp only [h1, h2, if_true, if_false]
          constructor
          · intro h; cases h
          · rintro ⟨rfl, -⟩; exact absurd h2 (lt_irrefl x)
        · simp only [h1, h2, if_false, ih ys]
          have hxy : x = y := le_antisymm (not_lt.mp h2) (not_lt.mp h1)
          simp [hxy]

theorem string_compare_lt_iff :
    ∀ (a b : List Char), string_compare a b = .lt ↔ List.Lex (· < ·) a b := by
  intro a
  induction a with
  | nil =>
    intro b
    cases b with
    | nil =>
      simp only [string_compare]
      constructor
      · intro h; cases h
      · intro h; cases h
    | cons y ys => simp [string_compare, List.Lex.nil]
  | cons x xs ih =>
    intro b
    cases b with
    | nil =>
      simp only [string_compare]
      constructor
      · intro h; cases h
      · intro h; cases h
    | cons y ys =>
      simp only [string_compare]
      by_cases h1 : x < y
      · simp only [h1, if_true, true_iff]
        exact List.Lex.rel h1
      · by_cases h2 : y < x
        · simp only [h1, h2, if_true, if_false]
          constructor
          · intro h; cases h
          · intro h
            cases h with
            | cons h => exact absurd h2 (lt_irrefl x)
            | rel h => exact absurd h h1
        · simp only [h1, h2, if_false, ih ys]
          have hxy : x = y := le_antisymm (not_lt.mp h2) (not_lt.mp h1)
          subst hxy
          constructor
          · intro h; exact List.Lex.cons h
          · intro h
            cases h with
            | cons h => exact h
            | rel h => exact absurd h h1

theorem string_compare_gt_iff :
    ∀ (a b : List Char), string_compare a b = .gt ↔ string_compare b a = .lt := by
  intro a
  induction a with
  | nil =>
    intro b
    cases b <;> simp [string_compare]
  | cons x xs ih =>
    intro b
    cases b with
    | nil => simp [string_compare]
    | cons y ys =>
      simp only [string_compare]
      by_cases h1 : x < y
      · have h2 : ¬ y < x := lt_asymm h1
        simp [h1, h2]
      · by_cases h2 : y < x
        · simp [h1, h2]
        · simp only [h1, h2, if_false, ih ys]

/-- C13: for views `a` and `b` whose raw ranges can be read, over any buffers
and with any predicates, `a == b` holds exactly when the two string conversions
are equal, `a != b` is its negation, and `a <=> b` is the lexicographic
three-way comparison of the two string conversions; so `a <=> b` is `equal`
exactly when `a == b`. -/
theorem comparisons_by_content (m : Mem) (a b : filtered_string_view)
    (ha : readable m a._ptr a._length) (hb : readable m b._ptr b._length) :
    ∃ sa sb, a.to_string m = some sa ∧ b.to_string m = some sb ∧
      operator_eq m a b = some (decide (sa = sb)) ∧
      operator_ne m a b = some (!decide (sa = sb)) ∧
      (operator_spaceship m a b = some .lt ↔ List.Lex (· < ·) sa sb) ∧
      (operator_spaceship m a b = some .eq ↔ sa = sb) ∧
      (operator_spaceship m a b = some .gt ↔ List.Lex (· < ·) sb sa) ∧
      (operator_spaceship m a b = some .eq ↔ operator_eq m a b = some true) := by
  have hsa := to_string_eq ha
  have hsb := to_string_eq hb
  have heq : operator_eq m a b = some (decide (passing a._predicate
      (raw_cells m a._ptr a._length) = passing b._predicate (raw_cells m b._ptr b._length))) := by
    simp [operator_eq, hsa, hsb]
  have hcmp : operator_spaceship m a b = some (string_compare
      (passing a._predicate (raw_cells m a._ptr a._length))
      (passing b._predicate (raw_cells m b._ptr b._length))) := by
    simp [operator_spaceship, hsa, hsb]
  refine ⟨_, _, hsa, hsb, heq, ?_, ?_, ?_, ?_, ?_⟩
  · simp [operator_ne, heq]
  · rw [hcmp, Option.some.injEq, string_compare_lt_iff]
  · rw [hcmp, Option.some.injEq, string_compare_eq_iff]
  · rw [hcmp, Option.some.injEq, string_compare_gt_iff, string_compare_lt_iff]
  · rw [hcmp, heq, Option.some.injEq, Option.some.injEq, string_compare_eq_iff]
    simp

theorem comparisons_by_content_witness :
    readable mem_ab sv_ab1._ptr sv_ab1._length ∧ readable mem_ab sv_ab2._ptr sv_ab2._length ∧
    ∃ sa sb, sv_ab1.to_string mem_ab = some sa ∧ sv_ab2.to_string mem_ab = some sb ∧
      operator_eq mem_ab sv_ab1 sv_ab2 = some (decide (sa = sb)) ∧
      operator_ne mem_ab sv_ab1 sv_ab2 = some (!decide (sa = sb)) ∧
      (operator_spaceship mem_ab sv_ab1 sv_ab2 = some .lt ↔ List.Lex (· < ·) sa sb) ∧
      (operator_spaceship mem_ab sv_ab1 sv_ab2 = some .eq ↔ sa = sb) ∧
      (operator_spaceship mem_ab sv_ab1 sv_ab2 = some .gt ↔ List.Lex (· < ·) sb sa) ∧
      (operator_spaceship mem_ab sv_ab1 sv_ab2 = some .eq ↔
        operator_eq mem_ab sv_ab1 sv_ab2 = some true) :=
  ⟨by decide, by decide, comparisons_by_content mem_ab sv_ab1 sv_ab2 (by decide) (by decide)⟩

/-- The tests of the comparisons: two views over different buffers with the same
filtered output are equal, and `"abcdef"` unfiltered is greater than both. -/
theorem comparisons_test_values :
    operator_eq mem_ab sv_ab1 sv_ab2 = some true ∧
    operator_ne mem_ab sv_ab1 sv_ab2 = some false ∧
    operator_spaceship mem_ab sv_ab1 sv_ab2 = some .eq ∧
    operator_spaceship mem_ab sv_ab1 ⟨1, 6, default_predicate⟩ = some .lt ∧
    operator_spaceship mem_ab ⟨8, 6, default_predicate⟩ ⟨1, 6, default_predicate⟩ = some .gt ∧
    operator_ne mem_ab ⟨8, 6, default_predicate⟩ ⟨1, 6, default_predicate⟩ = some true := by
  decide

/-- C14: for a view `v` with string conversion `s`,
the view `w` with the default predicate built from an owned string that holds
`s` (its characters stored from address `d` on) has the string conversion `s`
again, and `w == v`. -/
theorem round_trip_through_string (m : Mem) (v : filtered_string_view) (s : List Char)
    (d : Nat) (hs : v.to_string m = some s)
    (hd : d ≠ nullptr) (hfit : d + s.length ≤ m.length)
    (hstore : raw_bytes m d s.length = s) :
    (of_string d s.length default_predicate).to_string m = some s ∧
    operator_eq m (of_string d s.length default_predicate) v = some true := by
  have hr : readable m d s.length := Or.inr ⟨hd, hfit⟩
  have hlen : (raw_bytes m d s.length).length = s.length := by rw [hstore]
  have hw : (of_string d s.length default_predicate).to_string m = some s := by
    unfold of_string
    rw [to_string_mk _ hr, passing_default hlen, hstore]
  refine ⟨hw, ?_⟩
  simp [operator_eq, hw, hs]

theorem round_trip_through_string_witness :
    sv_ab1.to_string mem_ab = some ['a', 'b'] ∧
    (15 : Nat) ≠ nullptr ∧ 15 + ['a', 'b'].length ≤ mem_ab.length ∧
    raw_bytes mem_ab 15 ['a', 'b'].length = ['a', 'b'] ∧
    (of_string 15 ['a', 'b'].length default_predicate).to_string mem_ab = some ['a', 'b'] ∧
    operator_eq mem_ab (of_string 15 ['a', 'b'].length default_predicate) sv_ab1 = some true :=
  ⟨by decide, by decide, by decide, by decide,
    round_trip_through_string mem_ab sv_ab1 ['a', 'b'] 15 (by decide) (by decide) (by decide)
      (by decide)⟩


/-! ## Copy and move -/

/-- C19, counterexample: a move assignment of an object to itself.  The guard
`this != &other` skips the body, so the source keeps its buffer: `data()` is
not null and `size()` is still 14. -/
theorem move_assign_to_itself_keeps_source :
    ((move_assign store_dogs 1 1) 1).data = 1 ∧ ((move_assign store_dogs 1 1) 1).data ≠ nullptr ∧
    ((move_assign store_dogs 1 1) 1).size mem_dogs = some 14 := by
  decide

/-- C19, amended: move construction, and move assignment between two distinct
objects, give the destination the data pointer, raw length and predicate of the
source (so the same `size()`), and leave the source in the default state:
`data()` null, `size()` 0, the default predicate.  A move assignment of an
object to itself changes nothing.  Copy construction and copy assignment give a
copy with the same `data()` and `size()` and leave the source unchanged. -/
theorem move_clears_source_and_copy_keeps_it (m : Mem) (s : Store) (this other : Nat)
    (v : filtered_string_view) (h : this ≠ other) :
    ((move_construct v).1 = v ∧ (move_construct v).1.size m = v.size m ∧
      (move_construct v).2.data = nullptr ∧ (move_construct v).2.size m = some 0 ∧
      (move_construct v).2.predicate = default_predicate) ∧
    ((move_assign s this other) this = s other ∧
      ((move_assign s this other) this).size m = (s other).size m ∧
      ((move_assign s this other) other).data = nullptr ∧
      ((move_assign s this other) other).size m = some 0 ∧
      ((move_assign s this other) other).predicate = default_predicate) ∧
    move_assign s this this = s ∧
    (copy_construct v = v ∧ (copy_construct v).data = v.data ∧
      (copy_construct v).size m = v.size m) ∧
    (∀ t o : Nat, (copy_assign s t o) t = s o ∧ (copy_assign s t o) o = s o ∧
      ((copy_assign s t o) t).data = (s o).data ∧
      ((copy_assign s t o) t).size m = (s o).size m) := by
  have hmove_this : (move_assign s this other) this = s other := by
    simp [move_assign, h, Function.update]
  have hmove_other : (move_assign s this other) other = ⟨nullptr, 0, default_predicate⟩ := by
    simp [move_assign, h, Function.update]
  refine ⟨⟨rfl, rfl, rfl, rfl, rfl⟩, ⟨hmove_this, by rw [hmove_this], ?_, ?_, ?_⟩, ?_,
    ⟨rfl, rfl, rfl⟩, ?_⟩
  · rw [hmove_other]; rfl
  · rw [hmove_other]; rfl
  · rw [hmove_other]; rfl
  · simp [move_assign]
  · intro t o
    have h1 : (copy_assign s t o) t = s o := by
      by_cases hto : t = o
      · simp [copy_assign, hto]
      · simp [copy_assign, hto, Function.update]
    have h2 : (copy_assign s t o) o = s o := by
      by_cases hto : t = o
      · simp [copy_assign, hto]
      · have hot : o ≠ t := fun e => hto e.symm
        simp [copy_assign, hto, Function.update, hot]
    exact ⟨h1, h2, by rw [h1], by rw [h1]⟩

theorem move_clears_source_and_copy_keeps_it_witness :
    (0 : Nat) ≠ 1 ∧
    ((move_construct sv_husky).1 = sv_husky ∧
      (move_construct sv_husky).1.size mem_dogs = sv_husky.size mem_dogs ∧
      (move_construct sv_husky).2.data = nullptr ∧
      (move_construct sv_husky).2.size mem_dogs = some 0 ∧
      (move_construct sv_husky).2.predicate = default_predicate) ∧
    ((move_assign store_dogs 0 1) 0 = store_dogs 1 ∧
      ((move_assign store_dogs 0 1) 0).size mem_dogs = (store_dogs 1).size mem_dogs ∧
      ((move_assign store_dogs 0 1) 1).data = nullptr ∧
      ((move_assign store_dogs 0 1) 1).size mem_dogs = some 0 ∧
      ((move_assign store_dogs 0 1) 1).predicate = default_predicate) ∧
    move_assign store_dogs 0 0 = store_dogs ∧
    (copy_construct sv_husky = sv_husky ∧ (copy_construct sv_husky).data = sv_husky.data ∧
      (copy_construct sv_husky).size mem_dogs = sv_husky.size mem_dogs) ∧
    (∀ t o : Nat, (copy_assign store_dogs t o) t = store_dogs o ∧
      (copy_assign store_dogs t o) o = store_dogs o ∧
      ((copy_assign store_dogs t o) t).data = (store_dogs o).data ∧
      ((copy_assign store_dogs t o) t).size mem_dogs = (store_dogs o).size mem_dogs) :=
  ⟨by decide, move_clears_source_and_copy_keeps_it mem_dogs store_dogs 0 1 sv_husky (by decide)⟩

/-- The tests of the copy and move members: the moved-from view has a null
`data()` and size 0, the destination has the data and the size of the source. -/
theorem move_test_values :
    (move_construct sv_husky).2.data = nullptr ∧
    (move_construct sv_husky).2.size mem_dogs = some 0 ∧
    (move_construct sv_husky).1.data = sv_husky.data ∧
    (move_construct sv_husky).1.size mem_dogs = some 14 ∧
    ((copy_assign store_dogs 0 1) 0).data = (store_dogs 1).data ∧
    ((copy_assign store_dogs 0 1) 0).size mem_dogs = some 14 := by
  decide

/-! ## Lemmas on the iterators -/

theorem load_of_drop {m : Mem} {p : Nat} {pre suf : List Char} {c : Char}
    (hp : p ≠ nullptr) (h : m.drop p = pre ++ c :: suf) :
    load m (p + pre.length) = some c := by
  have hget : (m.drop p)[pre.length]? = some c := by
    rw [h, List.getElem?_append_right (le_refl _)]
    simp
  rw [List.getElem?_drop] at hget
  have hne : p + pre.length ≠ nullptr := by unfold nullptr at hp ⊢; omega
  simp [load, hne, hget]

theorem drop_shift {m : Mem} {p : Nat} {pre suf : List Char} (h : m.drop p = pre ++ suf) :
    m.drop (p + pre.length) = suf := by
  rw [← List.drop_drop, h, List.drop_left]

theorem load_head {m : Mem} {p : Nat} {suf : List Char} {c : Char}
    (hp : p ≠ nullptr) (h : m.drop p = c :: suf) : load m p = some c := by
  have h' : m.drop p = [] ++ c :: suf := by simpa using h
  simpa using load_of_drop hp h'

theorem drop_tail {m : Mem} {p : Nat} {suf : List Char} {c : Char}
    (h : m.drop p = c :: suf) : m.drop (p + 1) = suf := by
  have h' : m.drop p = [c] ++ suf := by simpa using h
  simpa using drop_shift h'

theorem advance_scan_spec (pred : Filter) (e : Char) (rest : List Char) :
    ∀ (bs : List Char) (p : Nat), p ≠ nullptr → pred (p + bs.length) e = true →
      ∃ k, k ≤ bs.length ∧ advance_scan pred (bs ++ e :: rest) p = some (p + k) ∧
        passing pred (cells_of p (bs.take k)) = [] ∧
        (bs.drop k = [] ∨ ∃ c tl, bs.drop k = c :: tl ∧ pred (p + k) c = true) := by
  intro bs
  induction bs with
  | nil =>
    intro p hp he
    refine ⟨0, le_refl _, ?_, rfl, Or.inl rfl⟩
    simp only [List.length_nil, Nat.add_zero] at he
    simp [advance_scan, he]
  | cons b tl ih =>
    intro p hp he
    by_cases hb : pred p b = true
    · refine ⟨0, Nat.zero_le _, ?_, rfl, Or.inr ⟨b, tl, rfl, hb⟩⟩
      simp [advance_scan, hb]
    · have hp1 : p + 1 ≠ nullptr := by unfold nullptr; omega
      have he1 : pred (p + 1 + tl.length) e = true := by
        rw [List.length_cons] at he
        rw [show p + 1 + tl.length = p + (tl.length + 1) by omega]
        exact he
      obtain ⟨k, hk, hscan, hpass, hrest⟩ := ih (p + 1) hp1 he1
      refine ⟨k + 1, by simp only [List.length_cons]; omega, ?_, ?_, ?_⟩
      · have hcond : p ≠ nullptr ∧ (!pred p b) = true := ⟨hp, by simp [hb]⟩
        rw [List.cons_append, advance_scan, if_pos hcond, hscan, Nat.add_assoc,
          Nat.add_comm 1 k]
      · rw [List.take_succ_cons, cells_of_cons, passing_cons]
        simp only [hb, if_false]
        exact hpass
      · rw [List.drop_succ_cons]
        rcases hrest with h | ⟨c, tl', h1, h2⟩
        · exact Or.inl h
        · refine Or.inr ⟨c, tl', h1, ?_⟩
          rw [show p + (k + 1) = p + 1 + k by omega]
          exact h2

theorem collect_spec {m : Mem} (pred : Filter) (e : Char) (rest : List Char) :
    ∀ (fuel : Nat) (bs : List Char) (p : Nat), bs.length + 1 ≤ fuel → p ≠ nullptr →
      m.drop p = bs ++ e :: rest → pred (p + bs.length) e = true →
      (bs = [] ∨ ∃ c tl, bs = c :: tl ∧ pred p c = true) →
      collect m ⟨p + bs.length, pred⟩ fuel ⟨p, pred⟩ = some (passing pred (cells_of p bs)) := by
  intro fuel
  induction fuel with
  | zero => intro bs p h; omega
  | succ fuel ih =>
    intro bs p hfuel hp hm he hrest
    rcases hrest with rfl | ⟨c, tl, rfl, hc⟩
    · simp [collect, iter.eq, cells_of_nil, passing_nil]
    · have hne : ¬ (p = p + (c :: tl).length) := by simp only [List.length_cons]; omega
      have hload : load m p = some c := load_head hp (by simpa using hm)
      have hm1 : m.drop (p + 1) = tl ++ e :: rest := drop_tail (by simpa using hm)
      have hp1 : p + 1 ≠ nullptr := by unfold nullptr; omega
      have he1 : pred (p + 1 + tl.length) e = true := by
        rw [List.length_cons] at he
        rw [show p + 1 + tl.length = p + (tl.length + 1) by omega]
        exact he
      obtain ⟨k, hk, hscan, hpass, hrest'⟩ := advance_scan_spec pred e rest tl (p + 1) hp1 he1
      have hmk : m.drop (p + 1 + k) = tl.drop k ++ e :: rest := by
        have h1 : m.drop (p + 1) = tl.take k ++ (tl.drop k ++ e :: rest) := by
          rw [hm1, ← List.append_assoc, List.take_append_drop]
        have h2 := drop_shift h1
        rw [List.length_take, Nat.min_eq_left hk] at h2
        exact h2
      have hlen : p + 1 + k + (tl.drop k).length = p + (c :: tl).length := by
        simp only [List.length_drop, List.length_cons]
        omega
      have hek : pred (p + 1 + k + (tl.drop k).length) e = true := by rw [hlen]; exact he
      have hrest'' : tl.drop k = [] ∨ ∃ c' tl', tl.drop k = c' :: tl' ∧ pred (p + 1 + k) c' = true :=
        hrest'
      have hrec := ih (tl.drop k) (p + 1 + k)
        (by simp only [List.length_drop]; simp only [List.length_cons] at hfuel; omega)
        (by unfold nullptr; omega) hmk hek hrest''
      rw [hlen] at hrec
      have hcells : passing pred (cells_of p (c :: tl)) =
          c :: passing pred (cells_of (p + 1 + k) (tl.drop k)) := by
        rw [cells_of_cons, passing_cons]
        simp only [hc, if_true]
        congr 1
        conv_lhs => rw [← List.take_append_drop k tl]
        rw [cells_of_append, passing_append, hpass, List.nil_append, List.length_take,
          Nat.min_eq_left hk]
      simp only [collect, iter.eq, hne, decide_False, Bool.false_eq_true, if_false, iter.deref,
        hload, iter.advance, hm1, hscan, Option.bind_eq_bind, Option.some_bind, hrec, hcells]

theorem view_shape {m : Mem} {p n : Nat} {e : Char} (h : load m (p + n) = some e) :
    ∃ rest, m.drop p = raw_bytes m p n ++ e :: rest ∧ (raw_bytes m p n).length = n := by
  have hlt : p + n < m.length := by
    unfold load at h
    split at h
    · cases h
    · exact (List.getElem?_eq_some.mp h).1
  have hget : m[p + n] = e := by
    unfold load at h
    split at h
    · cases h
    · exact (List.getElem?_eq_some.mp h).2
  refine ⟨m.drop (p + n + 1), ?_, ?_⟩
  · have h1 : m.drop p = (m.drop p).take n ++ (m.drop p).drop n :=
      (List.take_append_drop n _).symm
    rw [List.drop_drop, List.drop_eq_getElem_cons hlt, hget] at h1
    exact h1
  · simp only [raw_bytes, List.length_take, List.length_drop]
    omega

theorem accepts_end_spec {m : Mem} {v : filtered_string_view} (h : accepts_end m v = true) :
    ∃ e, load m (v._ptr + v._length) = some e ∧ v._predicate (v._ptr + v._length) e = true := by
  unfold accepts_end at h
  split at h
  · next c hc => exact ⟨c, hc, h⟩
  · cases h

theorem end_spec {m : Mem} {v : filtered_string_view} (hp : v._ptr ≠ nullptr)
    (hacc : accepts_end m v = true) :
    v.end_ m = some ⟨v._ptr + v._length, v._predicate⟩ := by
  obtain ⟨e, hload, he⟩ := accepts_end_spec hacc
  have hne : v._ptr + v._length ≠ nullptr := by unfold nullptr at hp ⊢; omega
  simp [end_, iter.construct, hne, hload, he]

theorem begin_spec {m : Mem} {v : filtered_string_view} (hp : v._ptr ≠ nullptr)
    (hacc : accepts_end m v = true) :
    ∃ k, k ≤ v._length ∧ v.begin_ m = some ⟨v._ptr + k, v._predicate⟩ ∧
      passing v._predicate (cells_of v._ptr ((raw_bytes m v._ptr v._length).take k)) = [] ∧
      ((raw_bytes m v._ptr v._length).drop k = [] ∨
        ∃ c tl, (raw_bytes m v._ptr v._length).drop k = c :: tl ∧
          v._predicate (v._ptr + k) c = true) := by
  obtain ⟨e, hload, he⟩ := accepts_end_spec hacc
  obtain ⟨rest, hm, hlen⟩ := view_shape hload
  generalize raw_bytes m v._ptr v._length = bs at hm hlen
  cases bs with
  | nil =>
    simp only [List.length_nil] at hlen
    rw [← hlen, Nat.add_zero] at hload he
    refine ⟨0, Nat.zero_le _, ?_, rfl, Or.inl rfl⟩
    simp [begin_, iter.construct, hp, hload, he]
  | cons b tl =>
    have hloadb : load m v._ptr = some b := load_head hp (by simpa using hm)
    by_cases hb : v._predicate v._ptr b = true
    · refine ⟨0, Nat.zero_le _, ?_, rfl, Or.inr ⟨b, tl, rfl, hb⟩⟩
      simp [begin_, iter.construct, hp, hloadb, hb]
    · have hm1 : m.drop (v._ptr + 1) = tl ++ e :: rest := drop_tail (by simpa using hm)
      have hp1 : v._ptr + 1 ≠ nullptr := by unfold nullptr; omega
      have he1 : v._predicate (v._ptr + 1 + tl.length) e = true := by
        rw [List.length_cons] at hlen
        rw [show v._ptr + 1 + tl.length = v._ptr + v._length by omega]
        exact he
      obtain ⟨k, hk, hscan, hpass, hrest⟩ :=
        advance_scan_spec v._predicate e rest tl (v._ptr + 1) hp1 he1
      refine ⟨k + 1, by rw [← hlen, List.length_cons]; omega, ?_, ?_, ?_⟩
      · simp only [begin_, iter.construct, hp, if_false, hloadb, Option.bind_eq_bind,
          Option.some_bind, hb, Bool.not_false, if_true, iter.advance, hm1, hscan]
        rw [Nat.add_assoc, Nat.add_comm 1 k]
      · rw [List.take_succ_cons, cells_of_cons, passing_cons]
        simp only [hb, if_false]
        exact hpass
      · rw [List.drop_succ_cons]
        rcases hrest with h | ⟨c, tl', h1, h2⟩
        · exact Or.inl h
        · refine Or.inr ⟨c, tl', h1, ?_⟩
          rw [show v._ptr + (k + 1) = v._ptr + 1 + k by omega]
          exact h2

/-- Forward traversal of a view whose predicate accepts the byte at
`data() + length`: `end()` is at `data() + length` and the characters collected
from `begin()` to `end()` are the string conversion. -/
theorem forward_range_spec {m : Mem} {v : filtered_string_view} (hp : v._ptr ≠ nullptr)
    (hacc : accepts_end m v = true) :
    forward_range m v = some (passing v._predicate (raw_cells m v._ptr v._length)) ∧
    forward_range m v = v.to_string m := by
  obtain ⟨e, hload, he⟩ := accepts_end_spec hacc
  obtain ⟨rest, hm, hlen⟩ := view_shape hload
  obtain ⟨k, hk, hbegin, hpass, hrest⟩ := begin_spec hp hacc
  have hlt : v._ptr + v._length < m.length := by
    unfold load at hload
    split at hload
    · cases hload
    · exact (List.getElem?_eq_some.mp hload).1
  have hread : readable m v._ptr v._length := Or.inr ⟨hp, by omega⟩
  have hmk : m.drop (v._ptr + k) = (raw_bytes m v._ptr v._length).drop k ++ e :: rest := by
    have h1 : m.drop v._ptr = (raw_bytes m v._ptr v._length).take k ++
        ((raw_bytes m v._ptr v._length).drop k ++ e :: rest) := by
      rw [hm, ← List.append_assoc, List.take_append_drop]
    have h2 := drop_shift h1
    rw [List.length_take, hlen, Nat.min_eq_left hk] at h2
    exact h2
  have hlk : v._ptr + k + ((raw_bytes m v._ptr v._length).drop k).length =
      v._ptr + v._length := by
    rw [List.length_drop, hlen]; omega
  have hcol := collect_spec (m := m) v._predicate e rest (m.length + 1)
    ((raw_bytes m v._ptr v._length).drop k) (v._ptr + k)
    (by rw [List.length_drop, hlen]; omega) (by unfold nullptr at hp ⊢; omega) hmk
    (by rw [hlk]; exact he) hrest
  rw [hlk] at hcol
  have hcells : passing v._predicate (raw_cells m v._ptr v._length) =
      passing v._predicate (cells_of (v._ptr + k) ((raw_bytes m v._ptr v._length).drop k)) := by
    rw [raw_cells_eq_cells_of hlen]
    conv_lhs => rw [← List.take_append_drop k (raw_bytes m v._ptr v._length)]
    rw [cells_of_append, passing_append, hpass, List.nil_append, List.length_take, hlen,
      Nat.min_eq_left hk]
  have hfwd : forward_range m v =
      some (passing v._predicate (raw_cells m v._ptr v._length)) := by
    simp only [forward_range, hbegin, end_spec hp hacc, Option.bind_eq_bind, Option.some_bind,
      hcol, hcells]
  exact ⟨hfwd, by rw [hfwd, to_string_eq hread]⟩


theorem retreat_scan_succ (m : Mem) (pred : Filter) (q : Nat) :
    retreat_scan m pred (q + 1) =
      (load m q).bind (fun c => if (!pred q c) = true then retreat_scan m pred q else some q) := by
  simp only [retreat_scan]
  rfl

theorem retreat_scan_spec {m : Mem} (pred : Filter) {p : Nat} (hp : p ≠ nullptr) :
    ∀ (pre suf : List Char), m.drop p = pre ++ suf → passing pred (cells_of p pre) ≠ [] →
      ∃ pre' c tl, pre = pre' ++ c :: tl ∧
        retreat_scan m pred (p + pre.length) = some (p + pre'.length) ∧
        pred (p + pre'.length) c = true ∧
        passing pred (cells_of p pre) = passing pred (cells_of p pre') ++ [c] := by
  intro pre
  induction pre using List.reverseRecOn with
  | nil => intro suf _ h; exact absurd (passing_nil pred) h
  | append_singleton pre x ih =>
    intro suf hm hne
    have hm' : m.drop p = pre ++ x :: suf := by rw [hm, List.append_assoc]; rfl
    have hload := load_of_drop hp hm'
    have hcells : passing pred (cells_of p (pre ++ [x])) =
        passing pred (cells_of p pre) ++
          (if pred (p + pre.length) x then [x] else []) := by
      rw [cells_of_append, passing_append, cells_of_cons, cells_of_nil, passing_cons, passing_nil]
    have hlen : p + (pre ++ [x]).length = p + pre.length + 1 := by
      rw [List.length_append, List.length_singleton]; omega
    rw [hlen, retreat_scan_succ m pred _, hload, Option.some_bind]
    by_cases hx : pred (p + pre.length) x = true
    · refine ⟨pre, x, [], rfl, by simp [hx], hx, ?_⟩
      rw [hcells, if_pos hx]
    · rw [hcells, if_neg hx, List.append_nil] at hne
      obtain ⟨pre', c, tl, hpre, hscan, hc, hpass⟩ := ih (x :: suf) hm' hne
      refine ⟨pre', c, tl ++ [x], by rw [hpre, List.append_assoc]; rfl, ?_, hc, ?_⟩
      · simp only [hx, Bool.not_false, if_true]
        exact hscan
      · rw [hcells, if_neg hx, List.append_nil, hpass]

theorem rcollect_spec {m : Mem} (pred : Filter) {p : Nat} (hp : p ≠ nullptr) (k0 : Nat)
    (bs suf : List Char) (hm : m.drop p = bs ++ suf)
    (hfirst : passing pred (cells_of p (bs.take k0)) = [])
    (hrest : bs.drop k0 = [] ∨ ∃ c tl, bs.drop k0 = c :: tl ∧ pred (p + k0) c = true) :
    ∀ (fuel j : Nat), k0 ≤ j → j ≤ bs.length → j + 1 ≤ fuel →
      rcollect m ⟨⟨p + k0, pred⟩⟩ fuel ⟨⟨p + j, pred⟩⟩ =
        some (passing pred (cells_of p (bs.take j))).reverse := by
  intro fuel
  induction fuel with
  | zero => intro j _ _ h; omega
  | succ fuel ih =>
    intro j hkj hj hfuel
    by_cases hjk : j = k0
    · subst hjk
      simp [rcollect, iter.eq, hfirst]
    · have hlt : k0 < j := lt_of_le_of_ne hkj (fun e => hjk e.symm)
      have hk0len : k0 < bs.length := by omega
      -- the character at offset `k0` passes
      obtain ⟨c0, tl0, hdrop, hc0⟩ : ∃ c tl, bs.drop k0 = c :: tl ∧ pred (p + k0) c = true := by
        rcases hrest with h | h
        · have := congrArg List.length h
          simp only [List.length_drop, List.length_nil] at this
          omega
        · exact h
      have htake_j : bs.take j = bs.take k0 ++ c0 :: tl0.take (j - k0 - 1) := by
        have h1 : bs.take j = (bs.take k0 ++ bs.drop k0).take j := by
          rw [List.take_append_drop]
        rw [h1, List.take_append_eq_append_take, List.take_take, Nat.min_eq_right hkj,
          List.length_take, Nat.min_eq_left (le_of_lt hk0len), hdrop]
        obtain ⟨d, hd⟩ : ∃ d, j - k0 = d + 1 := ⟨j - k0 - 1, by omega⟩
        rw [hd, List.take_succ_cons]
        simp
      have hlen_k0 : (bs.take k0).length = k0 := by
        rw [List.length_take, Nat.min_eq_left (le_of_lt hk0len)]
      have hne : passing pred (cells_of p (bs.take j)) ≠ [] := by
        rw [htake_j, cells_of_append, passing_append, hfirst, List.nil_append, cells_of_cons,
          passing_cons, hlen_k0, if_pos hc0]
        exact List.cons_ne_nil _ _
      have hmj : m.drop p = bs.take j ++ (bs.drop j ++ suf) := by
        rw [hm, ← List.append_assoc, List.take_append_drop]
      have hlen_j : (bs.take j).length = j := by rw [List.length_take, Nat.min_eq_left hj]
      obtain ⟨pre', c, tl, hpre, hscan, hc, hpass⟩ :=
        retreat_scan_spec pred hp (bs.take j) (bs.drop j ++ suf) hmj hne
      rw [hlen_j] at hscan
      have hi : pre'.length < j := by
        have := congrArg List.length hpre
        rw [hlen_j, List.length_append, List.length_cons] at this
        omega
      have hload : load m (p + pre'.length) = some c := by
        have hshape : m.drop p = pre' ++ c :: (tl ++ (bs.drop j ++ suf)) := by
          rw [hmj, hpre, List.append_assoc]
          rfl
        exact load_of_drop hp hshape
      have htake_i : bs.take pre'.length = pre' := by
        have h1 : bs.take pre'.length = (bs.take j).take pre'.length := by
          rw [List.take_take, Nat.min_eq_left (le_of_lt hi)]
        rw [h1, hpre, List.take_left]
      -- the last passing character before `j` is not before `k0`
      have hki : k0 ≤ pre'.length := by
        by_contra hcon
        have hlt' : pre'.length < k0 := by omega
        have h1 : bs.take k0 = (bs.take j).take k0 := by
          rw [List.take_take, Nat.min_eq_left hkj]
        obtain ⟨d, hd⟩ : ∃ d, k0 = pre'.length + (d + 1) := ⟨k0 - pre'.length - 1, by omega⟩
        have h2 : bs.take k0 = pre' ++ c :: tl.take d := by
          rw [h1, hpre, hd, List.take_append, List.take_succ_cons]
        rw [h2, cells_of_append, passing_append, cells_of_cons, passing_cons, if_pos hc] at hfirst
        exact absurd hfirst (by simp)
      have hrec := ih pre'.length hki (by omega) (by omega)
      rw [htake_i] at hrec
      have hneq : ¬ (p + j = p + k0) := by omega
      simp only [rcollect, iter.eq, hneq, decide_False, Bool.false_eq_true, if_false,
        reverse_iterator.deref, reverse_iterator.next, iter.retreat, iter.deref, hscan,
        Option.bind_eq_bind, Option.some_bind, hload, hrec, hpass, List.reverse_append,
        List.reverse_cons, List.reverse_nil, List.nil_append, List.singleton_append]

/-- Reverse traversal of a view whose predicate accepts the byte at
`data() + length`: the characters collected from `rbegin()` to `rend()` are the
string conversion, reversed. -/
theorem reverse_range_spec {m : Mem} {v : filtered_string_view} (hp : v._ptr ≠ nullptr)
    (hacc : accepts_end m v = true) :
    reverse_range m v = some (passing v._predicate (raw_cells m v._ptr v._length)).reverse ∧
    reverse_range m v = (v.to_string m).map List.reverse := by
  obtain ⟨e, hload, he⟩ := accepts_end_spec hacc
  obtain ⟨rest, hm, hlen⟩ := view_shape hload
  obtain ⟨k, hk, hbegin, hpass, hrest⟩ := begin_spec hp hacc
  have hlt : v._ptr + v._length < m.length := by
    unfold load at hload
    split at hload
    · cases hload
    · exact (List.getElem?_eq_some.mp hload).1
  have hread : readable m v._ptr v._length := Or.inr ⟨hp, by omega⟩
  have hcol := rcollect_spec v._predicate hp k (raw_bytes m v._ptr v._length) (e :: rest) hm
    hpass hrest (m.length + 1) v._length hk (le_of_eq hlen.symm) (by omega)
  rw [List.take_of_length_le (le_of_eq hlen), ← raw_cells_eq_cells_of hlen] at hcol
  have hrev : reverse_range m v =
      some (passing v._predicate (raw_cells m v._ptr v._length)).reverse := by
    simp only [reverse_range, rbegin, rend, hbegin, end_spec hp hacc, Option.bind_eq_bind,
      Option.some_bind, hcol]
  exact ⟨hrev, by rw [hrev, to_string_eq hread]; rfl⟩

/-! ## Iterators -/

/-- C15, the code at a failing input: the view over `"cat"` that keeps `a` has
size 1 and string conversion `"a"`; its predicate rejects the terminator, so
`end()` and the increment after `a` read past the terminator, and the traversal
from `begin()` to `end()` is undefined. -/
theorem forward_range_reads_past_terminator :
    sv_cat.size mem_cat = some 1 ∧ sv_cat.to_string mem_cat = some ['a'] ∧
    (sv_cat.begin_ mem_cat).map (·._ptr) = some 2 ∧
    ((sv_cat.begin_ mem_cat).bind (iter.advance mem_cat)).map (·._ptr) = none ∧
    forward_range mem_cat sv_cat = none := by
  decide

/-- C16, the code at a failing input: for the view over `"cat"` that keeps `a`,
`rbegin()` is built from `end()`, which reads past the terminator, and the
reverse traversal is undefined. -/
theorem reverse_range_reads_past_terminator :
    sv_cat.to_string mem_cat = some ['a'] ∧
    (sv_cat.rbegin mem_cat).map (·.current._ptr) = none ∧
    reverse_range mem_cat sv_cat = none := by
  decide

/-- C17, the code at a failing input: for the view over `"cat"` that keeps `a`,
the one-past-the-last position is address 4, where the terminator is; the
constructor of the iterator finds the terminator rejected and advances, so
`end()` is undefined when nothing follows in memory and is address 5 when an
`a` is stored there. -/
theorem end_moves_past_the_buffer :
    sv_cat._ptr + sv_cat._length = 4 ∧ load mem_cat 4 = some NUL ∧
    (sv_cat.end_ mem_cat).map (·._ptr) = none ∧
    (sv_cat.end_ mem_cat_a).map (·._ptr) = some 5 := by
  decide

/-- C18, the code at a failing input: the view over `"cat"` that passes no
character.  The constructor of the iterator advances over the three
characters, finds the terminator rejected too and reads past it: `begin()` and
`end()` are undefined. -/
theorem begin_reads_past_terminator :
    sv_cat_z.size mem_cat = some 0 ∧
    (sv_cat_z.begin_ mem_cat).map (·._ptr) = none ∧
    (sv_cat_z.end_ mem_cat).map (·._ptr) = none := by
  decide

/-- The tests of the ranges: `"puppy"` without `u` and `y` forwards, `"milo"`
without `i` and `o` backwards. -/
theorem range_test_values :
    forward_range mem_milo sv_puppy = some ['p', 'p', 'p'] ∧
    reverse_range mem_milo sv_milo = some ['l', 'm'] ∧
    forward_range mem_milo sv_milo = some ['m', 'l'] ∧
    (sv_milo.end_ mem_milo).map (·._ptr) = some 5 := by
  decide

/-! ## The predicates of the segments of `split` -/

/-- C20, the code at a failing input: `"xx"` split on `"x"` gives three empty
segments.  The two pushed inside the loop have the always-false predicate; the
trailing one is built by `emplace_back("")` and has the default predicate,
which accepts every character. -/
theorem split_trailing_segment_accepts :
    (split mem_x 7 sv_xx tok_x).map (List.map (to_string mem_x)) =
      some [some [], some [], some []] ∧
    (split mem_x 7 sv_xx tok_x).map (List.map (fun seg => seg.predicate 1 'a')) =
      some [false, false, true] := by
  decide

/-! ## Iteration inside the buffer -/

theorem passing_eq_nil {pred : Filter} {l : List (Nat × Char)} (h : passing pred l = []) :
    l.filter (fun ac => pred ac.1 ac.2) = [] := by
  unfold passing at h
  exact List.map_eq_nil_iff.mp h

theorem collect_eq_walk (m : Mem) (last : iter) : ∀ (fuel : Nat) (first : iter),
    collect m last fuel first = (walk m last fuel first).map (List.map Prod.snd) := by
  intro fuel
  induction fuel with
  | zero => intro first; rfl
  | succ fuel ih =>
    intro first
    simp only [collect, walk]
    split
    · rfl
    · cases hd : first.deref m with
      | none => rfl
      | some c =>
        cases ha : first.advance m with
        | none => rfl
        | some next =>
          simp only [Option.bind_eq_bind, Option.some_bind, ih next]
          cases walk m last fuel next <;> rfl

theorem walk_spec {m : Mem} (pred : Filter) (e : Char) (rest : List Char) :
    ∀ (fuel : Nat) (bs : List Char) (p : Nat), bs.length + 1 ≤ fuel → p ≠ nullptr →
      m.drop p = bs ++ e :: rest → pred (p + bs.length) e = true →
      (bs = [] ∨ ∃ c tl, bs = c :: tl ∧ pred p c = true) →
      walk m ⟨p + bs.length, pred⟩ fuel ⟨p, pred⟩ =
        some ((cells_of p bs).filter (fun ac => pred ac.1 ac.2)) := by
  intro fuel
  induction fuel with
  | zero => intro bs p h; omega
  | succ fuel ih =>
    intro bs p hfuel hp hm he hrest
    rcases hrest with rfl | ⟨c, tl, rfl, hc⟩
    · simp [walk, iter.eq, cells_of_nil]
    · have hne : ¬ (p = p + (c :: tl).length) := by simp only [List.length_cons]; omega
      have hload : load m p = some c := load_head hp (by simpa using hm)
      have hm1 : m.drop (p + 1) = tl ++ e :: rest := drop_tail (by simpa using hm)
      have hp1 : p + 1 ≠ nullptr := by unfold nullptr; omega
      have he1 : pred (p + 1 + tl.length) e = true := by
        rw [List.length_cons] at he
        rw [show p + 1 + tl.length = p + (tl.length + 1) by omega]
        exact he
      obtain ⟨k, hk, hscan, hpass, hrest'⟩ := advance_scan_spec pred e rest tl (p + 1) hp1 he1
      have hmk : m.drop (p + 1 + k) = tl.drop k ++ e :: rest := by
        have h1 : m.drop (p + 1) = tl.take k ++ (tl.drop k ++ e :: rest) := by
          rw [hm1, ← List.append_assoc, List.take_append_drop]
        have h2 := drop_shift h1
        rw [List.length_take, Nat.min_eq_left hk] at h2
        exact h2
      have hlen : p + 1 + k + (tl.drop k).length = p + (c :: tl).length := by
        simp only [List.length_drop, List.length_cons]
        omega
      have hek : pred (p + 1 + k + (tl.drop k).length) e = true := by rw [hlen]; exact he
      have hrec := ih (tl.drop k) (p + 1 + k)
        (by simp only [List.length_drop]; simp only [List.length_cons] at hfuel; omega)
        (by unfold nullptr; omega) hmk hek hrest'
      rw [hlen] at hrec
      have hcells : (cells_of p (c :: tl)).filter (fun ac => pred ac.1 ac.2) =
          (p, c) :: (cells_of (p + 1 + k) (tl.drop k)).filter (fun ac => pred ac.1 ac.2) := by
        rw [cells_of_cons, List.filter_cons]
        simp only [hc, if_true]
        congr 1
        conv_lhs => rw [← List.take_append_drop k tl]
        rw [cells_of_append, List.filter_append, passing_eq_nil hpass, List.nil_append,
          List.length_take, Nat.min_eq_left hk]
      simp only [walk, iter.eq, hne, decide_False, Bool.false_eq_true, if_false, iter.deref,
        hload, iter.advance, hm1, hscan, Option.bind_eq_bind, Option.some_bind, hrec, hcells]

theorem terminator_accepted {m : Mem} {v : filtered_string_view} (hv : nul_terminated m v)
    (hacc : v._predicate (v._ptr + v._length) NUL = true) : accepts_end m v = true := by
  obtain ⟨hp, -, hlen, -, rest, hm⟩ := strlen_spec hv
  have hload := load_of_drop hp hm
  rw [hlen] at hload
  simp [accepts_end, hload, hacc]

/-- C21: for a view `v` over a null-terminated buffer (no `NUL` before the
terminator) whose predicate accepts the terminator, `begin()` is defined and
lies in `[data(), data() + length]`, `end()` is the iterator at
`data() + length`, and the traversal from `begin()` reaches `end()`: the
iterators dereferenced and incremented on the way are at the addresses of the
raw characters that pass, in order, so every position taken (the last increment
lands on `end()`) lies in `[data(), data() + length]`, the number of increments
is `v.size()` and the characters read are the string conversion of `v`. -/
theorem iteration_stays_in_buffer (m : Mem) (v : filtered_string_view)
    (hv : nul_terminated m v) (hacc : v._predicate (v._ptr + v._length) NUL = true) :
    ∃ b steps,
      v.begin_ m = some b ∧ v._ptr ≤ b._ptr ∧ b._ptr ≤ v._ptr + v._length ∧
      v.end_ m = some ⟨v._ptr + v._length, v._predicate⟩ ∧
      forward_steps m v = some steps ∧
      steps = (raw_cells m v._ptr v._length).filter (fun ac => v._predicate ac.1 ac.2) ∧
      (steps.map Prod.fst ++ [v._ptr + v._length]).head? = some b._ptr ∧
      (∀ p ∈ steps.map Prod.fst ++ [v._ptr + v._length],
        v._ptr ≤ p ∧ p ≤ v._ptr + v._length) ∧
      v.size m = some steps.length ∧
      v.to_string m = some (steps.map Prod.snd) ∧
      forward_range m v = some (steps.map Prod.snd) := by
  have hae := terminator_accepted hv hacc
  obtain ⟨hp, hlt, hlen, -, rest, hm⟩ := strlen_spec hv
  obtain ⟨k, hk, hbegin, hpass, hrest⟩ := begin_spec hp hae
  have hend := end_spec hp hae
  have hread : readable m v._ptr v._length := strlen_readable hv
  have hmk : m.drop (v._ptr + k) = (raw_bytes m v._ptr v._length).drop k ++ NUL :: rest := by
    have h1 : m.drop v._ptr = (raw_bytes m v._ptr v._length).take k ++
        ((raw_bytes m v._ptr v._length).drop k ++ NUL :: rest) := by
      rw [hm, ← List.append_assoc, List.take_append_drop]
    have h2 := drop_shift h1
    rw [List.length_take, hlen, Nat.min_eq_left hk] at h2
    exact h2
  have hlk : v._ptr + k + ((raw_bytes m v._ptr v._length).drop k).length =
      v._ptr + v._length := by
    rw [List.length_drop, hlen]; omega
  have hwalk := walk_spec (m := m) v._predicate NUL rest (m.length + 1)
    ((raw_bytes m v._ptr v._length).drop k) (v._ptr + k)
    (by rw [List.length_drop, hlen]; omega) (by unfold nullptr at hp ⊢; omega) hmk
    (by rw [hlk]; exact hacc) hrest
  rw [hlk] at hwalk
  have hcells : (raw_cells m v._ptr v._length).filter (fun ac => v._predicate ac.1 ac.2) =
      (cells_of (v._ptr + k) ((raw_bytes m v._ptr v._length).drop k)).filter
        (fun ac => v._predicate ac.1 ac.2) := by
    rw [raw_cells_eq_cells_of hlen]
    conv_lhs => rw [← List.take_append_drop k (raw_bytes m v._ptr v._length)]
    rw [cells_of_append, List.filter_append, passing_eq_nil hpass, List.nil_append,
      List.length_take, hlen, Nat.min_eq_left hk]
  have hsteps : forward_steps m v =
      some ((raw_cells m v._ptr v._length).filter (fun ac => v._predicate ac.1 ac.2)) := by
    simp only [forward_steps, hbegin, hend, Option.bind_eq_bind, Option.some_bind, hwalk, hcells]
  have hmem : ∀ ac ∈ (raw_cells m v._ptr v._length).filter (fun ac => v._predicate ac.1 ac.2),
      v._ptr ≤ ac.1 ∧ ac.1 < v._ptr + v._length := by
    intro ac hac
    have h1 := List.mem_of_mem_filter hac
    rw [raw_cells_eq_cells_of hlen] at h1
    have h2 := cells_of_mem h1
    rw [hlen] at h2
    exact h2
  refine ⟨_, _, hbegin, Nat.le_add_right _ _, by simp only; omega, hend, hsteps, rfl, ?_, ?_,
    ?_, ?_, ?_⟩
  · rw [hcells]
    rcases hrest with h | ⟨c, tl, h, hc⟩
    · have hkn : k = v._length := by
        have := congrArg List.length h
        simp only [List.length_drop, List.length_nil, hlen] at this
        omega
      rw [h, hkn]
      rfl
    · rw [h, cells_of_cons, List.filter_cons]
      simp [hc]
  · intro p hmp
    rcases List.mem_append.mp hmp with h | h
    · obtain ⟨ac, hac, rfl⟩ := List.mem_map.mp h
      have := hmem ac hac
      omega
    · simp only [List.mem_singleton] at h
      omega
  · rw [size_eq hread]
    simp [passing]
  · rw [to_string_eq hread]
    rfl
  · rw [(forward_range_spec hp hae).1]
    rfl

theorem iteration_stays_in_buffer_witness :
    nul_terminated mem_milo sv_milo ∧
    sv_milo._predicate (sv_milo._ptr + sv_milo._length) NUL = true ∧
    ∃ b steps,
      sv_milo.begin_ mem_milo = some b ∧ sv_milo._ptr ≤ b._ptr ∧
      b._ptr ≤ sv_milo._ptr + sv_milo._length ∧
      sv_milo.end_ mem_milo = some ⟨sv_milo._ptr + sv_milo._length, sv_milo._predicate⟩ ∧
      forward_steps mem_milo sv_milo = some steps ∧
      steps = (raw_cells mem_milo sv_milo._ptr sv_milo._length).filter
        (fun ac => sv_milo._predicate ac.1 ac.2) ∧
      (steps.map Prod.fst ++ [sv_milo._ptr + sv_milo._length]).head? = some b._ptr ∧
      (∀ p ∈ steps.map Prod.fst ++ [sv_milo._ptr + sv_milo._length],
        sv_milo._ptr ≤ p ∧ p ≤ sv_milo._ptr + sv_milo._length) ∧
      sv_milo.size mem_milo = some steps.length ∧
      sv_milo.to_string mem_milo = some (steps.map Prod.snd) ∧
      forward_range mem_milo sv_milo = some (steps.map Prod.snd) :=
  ⟨by decide, by decide, iteration_stays_in_buffer mem_milo sv_milo (by decide) (by decide)⟩

/-- The steps of the traversals of the tests: `"milo"` without `i` and `o`,
`"puppy"` without `u` and `y`, and `"xax"` under the default predicate. -/
theorem steps_test_values :
    forward_steps mem_milo sv_milo = some [(1, 'm'), (3, 'l')] ∧
    (sv_milo.end_ mem_milo).map (·._ptr) = some 5 ∧
    forward_steps mem_milo sv_puppy = some [(6, 'p'), (8, 'p'), (9, 'p')] ∧
    (sv_puppy.begin_ mem_milo).map (·._ptr) = some 6 ∧
    (sv_puppy.end_ mem_milo).map (·._ptr) = some 11 ∧
    forward_steps mem_x sv_xax = some [(1, 'x'), (2, 'a'), (3, 'x')] ∧
    sv_xax.size mem_x = some 3 := by
  decide

/-! ## Joining the segments of `split` -/

theorem passing_true {pred : Filter} (h : ∀ a c, pred a c = true) (l : List (Nat × Char)) :
    passing pred l = l.map Prod.snd := by
  have hf : l.filter (fun ac => pred ac.1 ac.2) = l :=
    List.filter_eq_self.mpr (fun ac _ => h ac.1 ac.2)
  rw [passing, hf]

theorem pieces_map {α β : Type} (f : α → β) (k : Nat) (s : List α) :
    ∀ (occs : List Nat) (start : Nat),
      pieces k (s.map f) start occs = (pieces k s start occs).map (List.map f) := by
  intro occs
  induction occs with
  | nil => intro start; simp [pieces]
  | cons o os ih => intro start; simp [pieces, ih]

theorem raw_cells_snd {m : Mem} {p n : Nat} (h : (raw_bytes m p n).length = n) :
    (raw_cells m p n).map Prod.snd = raw_bytes m p n := by
  unfold raw_cells
  apply List.map_snd_zip
  simp [h]

theorem intercalate_cons_cons {α : Type} (t a b : List α) (l : List (List α)) :
    List.intercalate t (a :: b :: l) = a ++ t ++ List.intercalate t (b :: l) := by
  simp [List.intercalate, List.intersperse]

theorem intercalate_singleton {α : Type} (t a : List α) : List.intercalate t [a] = a := by
  simp [List.intercalate, List.intersperse]

theorem occurrence_shape (t : List Char) (ht : t ≠ []) (r : List Char)
    (h : search_list t r + t.length ≤ r.length) :
    r = r.take (search_list t r) ++ t ++ r.drop (search_list t r + t.length) := by
  have hk : 1 ≤ t.length := by
    cases t with
    | nil => exact absurd rfl ht
    | cons _ _ => simp
  have hpre := search_list_is_occurrence t r (by omega)
  obtain ⟨u, hu⟩ := List.isPrefixOf_iff_prefix.mp hpre
  have hu' : u = r.drop (search_list t r + t.length) := by
    have := congrArg (List.drop t.length) hu
    rw [List.drop_left, List.drop_drop] at this
    rw [this]
  rw [← hu', List.append_assoc, hu, List.take_append_drop]

theorem no_infix_before_search (t : List Char) (ht : t ≠ []) (r : List Char) (j : Nat)
    (hj : j ≤ search_list t r) : ¬ t <:+: r.take j := by
  have hk : 1 ≤ t.length := by
    cases t with
    | nil => exact absurd rfl ht
    | cons _ _ => simp
  rintro ⟨a, b, h⟩
  have hlen := congrArg List.length h
  simp only [List.length_append, List.length_take] at hlen
  have ha : a.length < search_list t r := by omega
  have hfalse := search_list_is_leftmost t r a.length ha
  have hr : r = a ++ (t ++ (b ++ r.drop j)) := by
    conv_lhs => rw [← List.take_append_drop j r, ← h]
    simp
  have hd : r.drop a.length = t ++ (b ++ r.drop j) := by
    conv_lhs => rw [hr]
    rw [List.drop_left]
  have htrue : t.isPrefixOf (r.drop a.length) = true := by
    rw [hd]
    exact List.isPrefixOf_iff_prefix.mpr (List.prefix_append _ _)
  rw [hfalse] at htrue
  cases htrue

theorem pieces_intercalate (t : List Char) (ht : t ≠ []) (s : List Char) :
    ∀ (n off : Nat), s.length - off ≤ n → off ≤ s.length →
      List.intercalate t (pieces t.length s off (occurrences t 0 off (s.drop off))) =
        s.drop off := by
  have hk : 1 ≤ t.length := by
    cases t with
    | nil => exact absurd rfl ht
    | cons _ _ => simp
  intro n
  induction n with
  | zero =>
    intro off h hoff
    have hd : s.drop off = [] := List.drop_of_length_le (by omega)
    rw [hd]
    simp [occurrences, pieces, hd, intercalate_singleton]
  | succ n ih =>
    intro off h hoff
    rcases search_list_spec t ht (s.drop off) off with ⟨-, hocc⟩ | ⟨hj, hocc⟩
    · rw [hocc]
      simp [pieces, intercalate_singleton]
    · rw [List.length_drop] at hj
      have hshape := occurrence_shape t ht (s.drop off) (by rw [List.length_drop]; exact hj)
      rw [List.drop_drop, ← Nat.add_assoc] at hocc hshape
      have hrec := ih (off + search_list t (s.drop off) + t.length) (by omega) (by omega)
      rw [hocc]
      simp only [pieces, Nat.add_sub_cancel_left]
      obtain ⟨b, l, hbl⟩ : ∃ b l, pieces t.length s (off + search_list t (s.drop off) + t.length)
          (occurrences t 0 (off + search_list t (s.drop off) + t.length)
            (s.drop (off + search_list t (s.drop off) + t.length))) = b :: l := by
        have hlen := pieces_length t.length s
          (occurrences t 0 (off + search_list t (s.drop off) + t.length)
            (s.drop (off + search_list t (s.drop off) + t.length)))
          (off + search_list t (s.drop off) + t.length)
        generalize pieces t.length s (off + search_list t (s.drop off) + t.length)
          (occurrences t 0 (off + search_list t (s.drop off) + t.length)
            (s.drop (off + search_list t (s.drop off) + t.length))) = ps at hlen
        cases ps with
        | nil => simp at hlen
        | cons b l => exact ⟨b, l, rfl⟩
      rw [hbl] at hrec ⊢
      rw [intercalate_cons_cons, hrec]
      exact hshape.symm

theorem pieces_no_infix (t : List Char) (ht : t ≠ []) (s : List Char) :
    ∀ (n off : Nat), s.length - off ≤ n → off ≤ s.length →
      ∀ piece ∈ pieces t.length s off (occurrences t 0 off (s.drop off)), ¬ t <:+: piece := by
  have hk : 1 ≤ t.length := by
    cases t with
    | nil => exact absurd rfl ht
    | cons _ _ => simp
  intro n
  induction n with
  | zero =>
    intro off h hoff piece hmem
    have hd : s.drop off = [] := List.drop_of_length_le (by omega)
    rw [hd] at hmem
    simp only [occurrences, pieces, hd, List.mem_singleton] at hmem
    rw [hmem]
    intro hin
    exact ht (List.eq_nil_of_infix_nil hin)
  | succ n ih =>
    intro off h hoff piece hmem
    rcases search_list_spec t ht (s.drop off) off with ⟨hj, hocc⟩ | ⟨hj, hocc⟩
    · rw [hocc] at hmem
      simp only [pieces, List.mem_singleton] at hmem
      have := no_infix_before_search t ht (s.drop off) (s.drop off).length (le_of_eq hj.symm)
      rw [List.take_length] at this
      rw [hmem]
      exact this
    · rw [List.length_drop] at hj
      rw [List.drop_drop, ← Nat.add_assoc] at hocc
      rw [hocc] at hmem
      simp only [pieces, Nat.add_sub_cancel_left, List.mem_cons] at hmem
      rcases hmem with hmem | hmem
      · rw [hmem]
        exact no_infix_before_search t ht (s.drop off) _ (le_refl _)
      · exact ih (off + search_list t (s.drop off) + t.length) (by omega) (by omega) piece hmem


theorem split_all_passing {m : Mem} {lit : Nat} {v tok : filtered_string_view} {k : Nat}
    (hv : nul_terminated m v) (hpred : ∀ a c, v._predicate a c = true)
    (hk : strlen m tok._ptr = some k) (hk0 : k ≠ 0) (hlit : strlen m lit = some 0) :
    ∃ segs, split m lit v tok = some segs ∧
      segs.map (to_string m) =
        (pieces k (raw_bytes m v._ptr v._length) 0
          (occurrences (raw_bytes m tok._ptr k) 0 0 (raw_bytes m v._ptr v._length))).map some := by
  obtain ⟨-, -, hblen, -, -⟩ := strlen_spec hv
  have hread : readable m v._ptr v._length := strlen_readable hv
  have hts : v.to_string m = some (raw_bytes m v._ptr v._length) := by
    rw [to_string_eq hread, passing_true hpred, raw_cells_snd hblen]
  have hsz : v.size m = some v._length := by
    rw [size_eq hread, passing_true hpred, raw_cells_snd hblen, hblen]
  by_cases h0 : v._length = 0
  · have hnil : raw_bytes m v._ptr v._length = [] := List.length_eq_zero.mp (by rw [hblen, h0])
    refine ⟨[v], ?_, ?_⟩
    · have hv' : strlen m v._ptr = some v._length := hv
      rw [h0] at hsz
      simp [split, data, hv', hk, hk0, hsz]
    · rw [hnil] at hts ⊢
      simp [occurrences, pieces, hts]
  · obtain ⟨segs, hsplit, hmap⟩ := split_spec hv hk hk0 hlit hsz h0
    refine ⟨_, hsplit, ?_⟩
    rw [hmap]
    generalize occurrences (raw_bytes m tok._ptr k) 0 0 (raw_bytes m v._ptr v._length) = occs
    conv_rhs => rw [← raw_cells_snd hblen, pieces_map, List.map_map]
    apply List.map_congr_left
    intro piece _
    simp only [Function.comp, passing_true hpred]

/-- C22: for a view `v` over a null-terminated buffer whose predicate accepts
every character, and a token whose null-terminated raw content `t` (of length
`k`) is not empty, `split(v, token)` returns segments whose string conversions,
joined in order with `t` between consecutive ones, are the raw content of the
buffer, which is also the string conversion of `v`. -/
theorem split_then_join (m : Mem) (lit : Nat) (v tok : filtered_string_view) (k : Nat)
    (hv : nul_terminated m v) (hpred : ∀ a c, v._predicate a c = true)
    (hk : strlen m tok._ptr = some k) (hk0 : k ≠ 0) (hlit : strlen m lit = some 0) :
    ∃ segs strs, split m lit v tok = some segs ∧ segs.map (to_string m) = strs.map some ∧
      List.intercalate (raw_bytes m tok._ptr k) strs = raw_bytes m v._ptr v._length ∧
      v.to_string m = some (raw_bytes m v._ptr v._length) := by
  obtain ⟨-, -, hblen, -, -⟩ := strlen_spec hv
  obtain ⟨-, -, htlen, -, -⟩ := strlen_spec hk
  have ht : raw_bytes m tok._ptr k ≠ [] := by
    intro h
    rw [h] at htlen
    exact hk0 htlen.symm
  obtain ⟨segs, hsplit, hmap⟩ := split_all_passing hv hpred hk hk0 hlit
  refine ⟨segs, _, hsplit, hmap, ?_, ?_⟩
  · have h := pieces_intercalate (raw_bytes m tok._ptr k) ht (raw_bytes m v._ptr v._length)
      (raw_bytes m v._ptr v._length).length 0 (by omega) (Nat.zero_le _)
    rw [htlen, List.drop_zero] at h
    exact h
  · rw [to_string_eq (strlen_readable hv), passing_true hpred, raw_cells_snd hblen]

theorem split_then_join_witness :
    nul_terminated mem_aa sv_aaaaa ∧ (∀ a c, sv_aaaaa._predicate a c = true) ∧
    strlen mem_aa tok_aa._ptr = some 2 ∧ (2 : Nat) ≠ 0 ∧ strlen mem_aa 10 = some 0 ∧
    ∃ segs strs, split mem_aa 10 sv_aaaaa tok_aa = some segs ∧
      segs.map (to_string mem_aa) = strs.map some ∧
      List.intercalate (raw_bytes mem_aa tok_aa._ptr 2) strs =
        raw_bytes mem_aa sv_aaaaa._ptr sv_aaaaa._length ∧
      sv_aaaaa.to_string mem_aa = some (raw_bytes mem_aa sv_aaaaa._ptr sv_aaaaa._length) :=
  ⟨by decide, fun _ _ => rfl, by decide, by decide, by decide,
    split_then_join mem_aa 10 sv_aaaaa tok_aa 2 (by decide) (fun _ _ => rfl) (by decide)
      (by decide) (by decide)⟩

/-- The join of the tests: `"aaaaa"` on `"aa"`, `"xax"` on `"x"` and the
hexadecimal example without its filter. -/
theorem join_test_values :
    (split mem_aa 10 sv_aaaaa tok_aa).map (List.map (to_string mem_aa)) =
      some [some [], some [], some ['a']] ∧
    List.intercalate "aa".toList [[], [], ['a']] = "aaaaa".toList ∧
    List.intercalate "x".toList [[], ['a'], []] = "xax".toList ∧
    List.intercalate " / ".toList ["0xDEADBEEF".toList, "0xdeadbeef".toList] =
      "0xDEADBEEF / 0xdeadbeef".toList := by
  decide

/-- C23: for a view `v` over a null-terminated buffer whose predicate accepts
every character, and a token whose null-terminated raw content `t` (of length
`k`) is not empty, `split(v, token)` returns segments every one of which has a
string conversion in which `t` does not occur as a contiguous run. -/
theorem split_segments_hold_no_token (m : Mem) (lit : Nat) (v tok : filtered_string_view)
    (k : Nat)
    (hv : nul_terminated m v) (hpred : ∀ a c, v._predicate a c = true)
    (hk : strlen m tok._ptr = some k) (hk0 : k ≠ 0) (hlit : strlen m lit = some 0) :
    ∃ segs, split m lit v tok = some segs ∧
      ∀ seg ∈ segs, ∃ str, seg.to_string m = some str ∧ ¬ raw_bytes m tok._ptr k <:+: str := by
  obtain ⟨-, -, htlen, -, -⟩ := strlen_spec hk
  have ht : raw_bytes m tok._ptr k ≠ [] := by
    intro h
    rw [h] at htlen
    exact hk0 htlen.symm
  obtain ⟨segs, hsplit, hmap⟩ := split_all_passing hv hpred hk hk0 hlit
  refine ⟨segs, hsplit, ?_⟩
  intro seg hseg
  have hmem : seg.to_string m ∈ segs.map (to_string m) := List.mem_map_of_mem _ hseg
  rw [hmap] at hmem
  obtain ⟨piece, hpiece, hstr⟩ := List.mem_map.mp hmem
  refine ⟨piece, hstr.symm, ?_⟩
  have h := pieces_no_infix (raw_bytes m tok._ptr k) ht (raw_bytes m v._ptr v._length)
    (raw_bytes m v._ptr v._length).length 0 (by omega) (Nat.zero_le _)
  rw [htlen, List.drop_zero] at h
  exact h piece hpiece

theorem split_segments_hold_no_token_witness :
    nul_terminated mem_x sv_xax ∧ (∀ a c, sv_xax._predicate a c = true) ∧
    strlen mem_x tok_x._ptr = some 1 ∧ (1 : Nat) ≠ 0 ∧ strlen mem_x 7 = some 0 ∧
    ∃ segs, split mem_x 7 sv_xax tok_x = some segs ∧
      ∀ seg ∈ segs, ∃ str, seg.to_string mem_x = some str ∧
        ¬ raw_bytes mem_x tok_x._ptr 1 <:+: str :=
  ⟨by decide, fun _ _ => rfl, by decide, by decide, by decide,
    split_segments_hold_no_token mem_x 7 sv_xax tok_x 1 (by decide) (fun _ _ => rfl)
      (by decide) (by decide) (by decide)⟩

/-! ## Views of more than `INT_MAX` characters -/

theorem mem_q_drop (n : Nat) : (mem_q n).drop 1 = List.replicate n 'Q' ++ [NUL] := rfl

theorem nul_not_mem_q (n : Nat) : NUL ∉ List.replicate n 'Q' := by
  intro h
  have := List.eq_of_mem_replicate h
  exact absurd this (by decide)

theorem mem_q_terminated (n : Nat) : nul_terminated (mem_q n) (sv_q n) := by
  have h := @strlen_from_append (List.replicate n 'Q') [] (nul_not_mem_q n)
  rw [List.length_replicate] at h
  have h1 : (1 : Nat) ≠ nullptr := by decide
  simp only [nul_terminated, sv_q, strlen, h1, if_false, mem_q_drop]
  exact h

theorem mem_q_raw (n : Nat) : raw_bytes (mem_q n) 1 n = List.replicate n 'Q' := by
  unfold raw_bytes
  rw [mem_q_drop, List.take_left' (List.length_replicate n 'Q')]

theorem mem_q_load (n i : Nat) (h : i < n) : load (mem_q n) (i + 1) = some 'Q' := by
  have hm : (mem_q n).drop 1 =
      List.replicate i 'Q' ++ 'Q' :: (List.replicate (n - i - 1) 'Q' ++ [NUL]) := by
    rw [mem_q_drop]
    have : n = i + (1 + (n - i - 1)) := by omega
    conv_lhs => rw [this, List.replicate_add, List.replicate_add]
    simp
  have := load_of_drop (by decide : (1 : Nat) ≠ nullptr) hm
  rw [List.length_replicate, Nat.add_comm] at this
  exact this

theorem mem_q_size (n : Nat) :
    (sv_q n).size (mem_q n) = some n ∧
    (sv_q n).to_string (mem_q n) = some (List.replicate n 'Q') := by
  have hv := mem_q_terminated n
  have hread : readable (mem_q n) (sv_q n)._ptr (sv_q n)._length := strlen_readable hv
  have hlen : (raw_bytes (mem_q n) 1 n).length = n := by rw [mem_q_raw, List.length_replicate]
  have hp : passing (sv_q n)._predicate (raw_cells (mem_q n) (sv_q n)._ptr (sv_q n)._length) =
      List.replicate n 'Q' := by
    have := passing_default hlen
    rw [mem_q_raw] at this
    exact this
  refine ⟨?_, ?_⟩
  · rw [size_eq hread, hp, List.length_replicate]
  · rw [to_string_eq hread, hp]

theorem nth_loop_skip {m : Mem} (pred : Filter) (hpred : ∀ a c, pred a c = true) (n : Int)
    (hn : n < 0) (j : Nat) :
    ∀ (k p : Nat) (idx : Int), readable m p k → 0 ≤ idx → idx + k ≤ INT_MAX →
      nth_loop m pred n p (k + j) idx = nth_loop m pred n (p + k) j (idx + k) := by
  intro k
  induction k with
  | zero => intro p idx _ _ _; simp
  | succ k ih =>
    intro p idx h h0 hmax
    obtain ⟨c, hc, -, -, hr⟩ := readable_succ h
    have he : idx ≠ n := by omega
    have hw : wrap_int (idx + 1) = idx + 1 :=
      wrap_int_id (by unfold INT_MIN; omega) (by push_cast at hmax; omega)
    rw [Nat.add_right_comm]
    simp only [nth_loop, hc, Option.bind_eq_bind, Option.some_bind, he, if_false, hw, hpred,
      if_true]
    rw [ih (p + 1) (idx + 1) hr (by omega) (by push_cast at hmax; omega)]
    congr 1
    · omega
    · push_cast; omega

/-- C3, the code at a failing input: the view over `std::string(2147483649, 'Q')`
with the default predicate, and `n = INT_MIN`, which is negative.  The `int`
counter of the loop of `operator[]` is incremented past `INT_MAX` after
2147483648 passing characters and, wrapping around, is `INT_MIN` at the next
one: `v[INT_MIN]` is `'Q'`, not the sentinel.  `at` rejects a negative index
before its loop and raises. -/
theorem subscript_wraps_to_negative_index :
    INT_MIN < 0 ∧
    (sv_q 2147483649).size (mem_q 2147483649) = some 2147483649 ∧
    (sv_q 2147483649).subscript (mem_q 2147483649) INT_MIN = some 'Q' ∧
    (sv_q 2147483649).at_ (mem_q 2147483649) INT_MIN =
      some (.error "filtered_string_view::at(-2147483648): invalid index") := by
  refine ⟨by decide, (mem_q_size _).1, ?_, ?_⟩
  · have hread : readable (mem_q 2147483649) 1 2147483647 := by
      have h := strlen_readable (mem_q_terminated 2147483649)
      rcases h with h | ⟨h1, h2⟩
      · exact absurd h (by decide)
      · exact Or.inr ⟨h1, by simp only [sv_q] at h2; omega⟩
    have hskip := nth_loop_skip (m := mem_q 2147483649) default_predicate (fun _ _ => rfl)
      INT_MIN (by decide) 2 2147483647 1 0 hread le_rfl (by decide)
    have hl1 : load (mem_q 2147483649) (1 + 2147483647) = some 'Q' := by
      have := mem_q_load 2147483649 2147483647 (by decide)
      rw [Nat.add_comm] at this
      exact this
    have hl2 : load (mem_q 2147483649) (1 + 2147483647 + 1) = some 'Q' :=
      mem_q_load 2147483649 2147483648 (by decide)
    have hw : wrap_int (0 + ((2147483647 : Nat) : Int) + 1) = INT_MIN := by decide
    have hne : ¬ (0 + ((2147483647 : Nat) : Int) = INT_MIN) := by decide
    have hloop : nth_loop (mem_q 2147483649) default_predicate INT_MIN 1 2147483649 0 =
        some (some 'Q') := by
      rw [show (2147483649 : Nat) = 2147483647 + 2 from rfl, hskip]
      simp only [nth_loop, hl1, hl2, Option.bind_eq_bind, Option.some_bind, default_predicate,
        if_true, hne, if_false, hw]
    simp only [subscript, sv_q, hloop, Option.bind_eq_bind, Option.some_bind]
  · decide


theorem substr_loop_q (rest : List Char) :
    substr_loop default_predicate 0 10 (List.replicate 11 'Q' ++ rest) 1 0 nullptr =
      some (1, 11) := by
  rfl

theorem substr_q (n lit : Nat) (hT : wrap_int (0 + wrap_int ((11 + n : Nat) : Int)) = 10) :
    (substr (mem_q (11 + n)) lit (sv_q (11 + n)) 0 0).bind (·.to_string (mem_q (11 + n))) =
      some (List.replicate 10 'Q') := by
  have hv : strlen (mem_q (11 + n)) 1 = some (11 + n) := mem_q_terminated (11 + n)
  have hcnt : count_if (mem_q (11 + n)) default_predicate 1 (11 + n) = some (11 + n) :=
    (mem_q_size (11 + n)).1
  have hnot : ¬ ((0 : Int) < 0 ∨ (0 : Int).toNat ≥ 11 + n) := by
    simp
  have hr : (if (0 : Int) ≤ 0 then 11 + n - (0 : Int).toNat else (0 : Int).toNat) = 11 + n := by
    simp
  have hdrop : (mem_q (11 + n)).drop 1 =
      List.replicate 11 'Q' ++ (List.replicate n 'Q' ++ [NUL]) := by
    rw [mem_q_drop, ← List.append_assoc, ← List.replicate_add]
  obtain ⟨w, hw, -, -, -, hwts⟩ := window_view (m := mem_q (11 + n)) default_predicate 11 hv
    (le_refl 1) (Nat.le_add_right 1 (11 + n))
  have hres : substr (mem_q (11 + n)) lit (sv_q (11 + n)) 0 0 = some w := by
    have h1 : ¬ ((1 : Nat) = nullptr) := by decide
    have h11 : ¬ ((11 : Nat) = nullptr) := by decide
    simp only [substr, data, predicate, sv_q, hv, hcnt, Option.bind_eq_bind, Option.some_bind,
      hnot, if_false, hdrop, hr, hT, substr_loop_q, h1, h11]
    exact hw
  clear hT
  rw [hres, Option.some_bind, hwts]
  have hlen : (raw_bytes (mem_q (11 + n)) 1 (11 + n)).length = 11 + n := by
    rw [mem_q_raw, List.length_replicate]
  have hwin := cells_window 1 (raw_bytes (mem_q (11 + n)) 1 (11 + n)) 0 10
    (by rw [hlen]; omega)
  rw [raw_cells_eq_cells_of hlen]
  simp only [Nat.add_zero] at hwin
  rw [show (11 : Nat) = 1 + 10 from rfl, hwin, List.drop_zero,
    @passing_true default_predicate (fun _ _ => rfl),
    List.map_take, ← raw_cells_eq_cells_of hlen, raw_cells_snd hlen, mem_q_raw,
    List.take_replicate]
  congr 2
  omega

/-- C5, the code at a failing input: the view over
`std::string(4294967306, 'Q')` with the default predicate, `pos = 0` and
`count = 0`.  `rcount` is the filtered size, 4294967306, which
`static_cast<int>` turns into 10, so the loop stops at the character of index
10: the string conversion of `substr(v, 0, 0)` is 10 characters long, while
that of `v`, which it should be, is 4294967306 characters long. -/
theorem substr_to_the_end_stops_early :
    (sv_q 4294967306).size (mem_q 4294967306) = some 4294967306 ∧
    ((sv_q 4294967306).to_string (mem_q 4294967306)).map List.length = some 4294967306 ∧
    (substr (mem_q 4294967306) 4294967307 (sv_q 4294967306) 0 0).bind
      (·.to_string (mem_q 4294967306)) = some (List.replicate 10 'Q') := by
  refine ⟨(mem_q_size _).1,
    by rw [(mem_q_size _).2, Option.map_some', List.length_replicate], ?_⟩
  exact substr_q 4294967295 4294967307 (by decide)

end fsv
